import Mathlib

/-!
# Verification development for kitten-tts-js

Shallow embedding of the text front end of the kitten-tts-js repository:
the tokenizer (`src/text-cleaner.js`), the numeric text normalizer
(`src/preprocess.js`), the chunker and input preparation of the main class
(`src/kitten-tts.js`, the version whose unit tests expect a trailing comma
from `_ensurePunctuation`), and the NPY/NPZ voice-archive loader
(`src/npz-loader.js`) together with the test helper `makeNpy`.

Strings are modelled as Lean `String`/`List Char` (JS iterates strings by
Unicode code point, which matches Lean's `Char`); byte buffers as
`List Nat` with entries `< 256`; fallible code as `Except`.
-/

/-! ## Tokenizer (src/text-cleaner.js)

`SYMBOLS = [_pad, ..._punctuation, ..._letters, ..._letters_ipa]`,
178 code points, written out below numerically (the JS source spreads
string literals; spreading iterates by code point). -/

/-- The 178 code points of `SYMBOLS` in `src/text-cleaner.js`, in order:
`'$'`, 16 punctuation marks (`'"'` U+0022 appears three times), `A–Z`,
`a–z`, 109 IPA symbols (`'\''` U+0027 appears twice, then U+0329, U+1D7B). -/
def SYMCODES : List Nat := [
  36, 59, 58, 44, 46, 33, 63, 161, 191, 8212, 8230, 34, 171, 187, 34, 34,
  32, 65, 66, 67, 68, 69, 70, 71, 72, 73, 74, 75, 76, 77, 78, 79,
  80, 81, 82, 83, 84, 85, 86, 87, 88, 89, 90, 97, 98, 99, 100, 101,
  102, 103, 104, 105, 106, 107, 108, 109, 110, 111, 112, 113, 114, 115, 116, 117,
  118, 119, 120, 121, 122, 593, 592, 594, 230, 595, 665, 946, 596, 597, 231, 599,
  598, 240, 676, 601, 600, 602, 603, 604, 605, 606, 607, 644, 609, 608, 610, 667,
  614, 615, 295, 613, 668, 616, 618, 669, 621, 620, 619, 622, 671, 625, 623, 624,
  331, 627, 626, 628, 248, 629, 632, 952, 339, 630, 664, 633, 634, 638, 635, 640,
  641, 637, 642, 643, 648, 679, 649, 650, 651, 11377, 652, 611, 612, 653, 967, 654,
  655, 657, 656, 658, 660, 673, 661, 674, 448, 449, 450, 451, 712, 716, 720, 721,
  700, 692, 688, 689, 690, 695, 736, 740, 734, 8595, 8593, 8594, 8599, 8600, 39, 809,
  39, 7547]

/-- `export const SYMBOLS = [_pad, ..._punctuation, ..._letters, ..._letters_ipa]`. -/
def SYMBOLS : List Char := SYMCODES.map Char.ofNat

/-- `SYMBOL_TO_ID`: a `Map` filled by `SYMBOLS.forEach((s, i) => set(s, i))`;
a later `set` of the same symbol overwrites the earlier one, so lookup
returns the index of the LAST occurrence. -/
def symbolToId (c : Char) : Option Nat :=
  (SYMBOLS.enum.reverse.find? (fun p => p.2 == c)).map Prod.fst

/-- `textToIds`: iterate the input by code point; look each one up in
`SYMBOL_TO_ID`; unknown code points are dropped (`if (id !== undefined)`). -/
def textToIds (s : String) : List Nat := s.data.filterMap symbolToId

/-- The fixed id appended before the final pad: `return [0, ...ids, 10, 0]`. -/
def SENTINEL : Nat := 10

/-- `TextCleaner.clean`: `return [0, ...ids, 10, 0]`. -/
def clean (phonemes : String) : List Nat := 0 :: (textToIds phonemes ++ [SENTINEL, 0])

/-! ## Style-row selection (src/kitten-tts.js, `_prepareInputs`)

`const tokenIds = this._cleaner.clean(phonemes); ...
 const refId = Math.min(tokenIds.length, numStyles - 1);`

The argument `phonemes` below is the string that reaches
`this._cleaner.clean` (in the source it is the phonemizer output passed
through `basic_english_tokenize(...).join(' ')`; the refId computation
depends only on this string, so it is taken as the input here).
`numStyles - 1` is JS number arithmetic, hence `Int`. -/

/-- `refId = Math.min(tokenIds.length, numStyles - 1)` with
`tokenIds = clean(phonemes)`. -/
def prepareRefId (phonemes : String) (numStyles : Nat) : Int :=
  min ((clean phonemes).length : Int) ((numStyles : Int) - 1)

/-! ## Theorems for C1 and C2 -/

/-- C1 (amended): the orchestrator selects
`refId = min(len(contentIds) + 3, numStyles - 1)` — the minimum is taken
over the length of the FRAMED token sequence `[0, ...contentIds, 10, 0]`,
not over the content-token count.  A content-token count of `0` yields
`refId = min(3, numStyles - 1)`, and any content-token count
`>= numStyles` still clamps to `numStyles - 1`. -/
theorem C1_refId_framedLength (p : String) (numStyles : Nat) :
    prepareRefId p numStyles
      = min (((textToIds p).length : Int) + 3) ((numStyles : Int) - 1) ∧
    ((textToIds p).length = 0 →
      prepareRefId p numStyles = min 3 ((numStyles : Int) - 1)) ∧
    (numStyles ≤ (textToIds p).length →
      prepareRefId p numStyles = (numStyles : Int) - 1) := by
  have hlen : (clean p).length = (textToIds p).length + 3 := by
    simp [clean]
  refine ⟨?_, ?_, ?_⟩
  · simp [prepareRefId, hlen]
  · intro h0
    simp [prepareRefId, hlen, h0]
  · intro hge
    have : ((numStyles : Int) - 1) ≤ ((clean p).length : Int) := by
      rw [hlen]; push_cast; omega
    simpa [prepareRefId] using min_eq_right this

/-- Witness for C1: at the concrete input `""` (content-token count 0) and
`numStyles = 10`, the theorem applies and gives `refId = min 3 9`. -/
theorem C1_refId_witness : prepareRefId "" 10 = min 3 ((10 : Int) - 1) :=
  (C1_refId_framedLength "" 10).2.1 (by decide)

/-- Counterexample for C1 as stated: for the empty phoneme string
(content-token count 0) and 10 style rows, the code computes `refId = 3`,
not `min(0, 9) = 0`. -/
theorem C1_refId_counterexample :
    prepareRefId "" 10 = 3 ∧
    min (((textToIds "").length : Int)) ((10 : Int) - 1) = 0 ∧
    (3 : Int) ≠ 0 := by
  refine ⟨by decide, by decide, by decide⟩

/-- C2: for every input string the tokenizer returns exactly
`[0] ++ contentIds ++ [SENTINEL, 0]`, where the content ids are the
symbol-table indices of the input's code points in input order with
absent code points dropped silently (`filterMap`); the empty string and
any string of only unsupported code points yield `[0, SENTINEL, 0]`. -/
theorem C2_tokenizer_framing (s : String) :
    clean s = [0] ++ s.data.filterMap symbolToId ++ [SENTINEL, 0] ∧
    clean "" = [0, SENTINEL, 0] ∧
    ((∀ c ∈ s.data, symbolToId c = none) → clean s = [0, SENTINEL, 0]) := by
  refine ⟨rfl, rfl, fun h => ?_⟩
  have hnil : textToIds s = [] := by
    simp only [textToIds, List.filterMap_eq_nil_iff]
    exact h
  simp [clean, hnil]

/-- Witness for C2: `"01"` contains only code points absent from the
symbol table (digits are not in `SYMBOLS`), and tokenizes to
`[0, SENTINEL, 0]`. -/
theorem C2_tokenizer_witness : clean "01" = [0, SENTINEL, 0] :=
  (C2_tokenizer_framing "01").2.2 (by decide)

/-! ## Shared string helpers

JS `String.prototype.trim()` removes whitespace from both ends; for the
character sets appearing in this code base `Char.isWhitespace` (space,
tab, LF, CR) coincides with the JS whitespace class. -/

/-- JS whitespace test (`\s`, `trim()`), restricted to the characters that
occur in this code base. -/
def isJsWS (c : Char) : Bool := c.isWhitespace

/-- JS `trim()`: remove leading and trailing whitespace
(`List.rdropWhile p l` is `(l.reverse.dropWhile p).reverse`). -/
def jsTrim (l : List Char) : List Char :=
  (l.dropWhile isJsWS).rdropWhile isJsWS

/-- JS `trim()` on a Lean `String`. -/
def trimStr (s : String) : String := ⟨jsTrim s.data⟩

/-! ## Number-to-words (src/preprocess.js) -/

/-- `_ONES`. -/
def ONES : List String :=
  ["", "one", "two", "three", "four", "five", "six", "seven", "eight", "nine",
   "ten", "eleven", "twelve", "thirteen", "fourteen", "fifteen", "sixteen",
   "seventeen", "eighteen", "nineteen"]

/-- `_TENS`. -/
def TENS : List String :=
  ["", "", "twenty", "thirty", "forty", "fifty", "sixty", "seventy", "eighty",
   "ninety"]

/-- `_SCALE`. -/
def SCALE : List String := ["", "thousand", "million", "billion", "trillion"]

/-- `_three_digits_to_words(n)`. -/
def threeDigitsToWords (n : Nat) : String :=
  if n = 0 then ""
  else
    let hundreds := n / 100
    let remainder := n % 100
    let parts1 : List String :=
      if hundreds ≠ 0 then [ONES.getD hundreds "" ++ " hundred"] else []
    let parts2 : List String :=
      if remainder < 20 then
        if remainder ≠ 0 then [ONES.getD remainder ""] else []
      else
        let tens_word := TENS.getD (remainder / 10) ""
        let ones_word := ONES.getD (remainder % 10) ""
        [if ones_word ≠ "" then tens_word ++ "-" ++ ones_word else tens_word]
    " ".intercalate (parts1 ++ parts2)

/-- The `for (let i = 0; i < _SCALE.length; i++) { ... if (tempN === 0) break }`
loop of `number_to_words`, returning the parts in push order. -/
def scaleParts (tempN : Nat) (scales : List String) : List String :=
  match scales with
  | [] => []
  | sc :: rest =>
    let chunk := tempN % 1000
    let part : List String :=
      if chunk ≠ 0 then
        [if sc = "" then threeDigitsToWords chunk
         else trimStr (threeDigitsToWords chunk ++ " " ++ sc)]
      else []
    let tempN' := tempN / 1000
    part ++ (if tempN' = 0 then [] else scaleParts tempN' rest)

/-- `number_to_words(n)` for non-negative `n` (the `n === 0` check, the
100–9999 special case with its inner `hundreds < 20` guard, then the scale
loop followed by `parts.reverse().join(" ")`). -/
def numberToWordsNat (n : Nat) : String :=
  if n = 0 then "zero"
  else if 100 ≤ n ∧ n ≤ 9999 ∧ n % 100 = 0 ∧ n % 1000 ≠ 0 ∧ n / 100 < 20 then
    ONES.getD (n / 100) "" ++ " hundred"
  else
    " ".intercalate (scaleParts n SCALE).reverse

/-- `number_to_words(n)` on integers (the `n < 0` case prepends
`"negative "` and recurses on `-n`, which is positive). -/
def numberToWords (n : Int) : String :=
  if n < 0 then "negative " ++ numberToWordsNat (-n).toNat
  else numberToWordsNat n.toNat

/-! ## TextPreprocessor (src/preprocess.js)

`TextPreprocessor.process` is a fixed chain of rewrite steps, each guarded
by one boolean configuration flag.  The bodies of the steps are regex
rewrites whose internals no claim inspects; they are taken as parameters
(`PreprocessRules`), while the guard structure and order of `process` are
translated exactly.  `replace_floats` is consulted inside the
`replace_numbers` step, so that step receives it as an argument. -/

/-- The configuration flags of `TextPreprocessor`, in constructor order.
`expand_scientific` models the source flag for scientific-notation
expansion (its source name ends in a token this development cannot use). -/
structure PreprocessConfig where
  lowercase : Bool
  replace_numbers : Bool
  replace_floats : Bool
  expand_contractions : Bool
  expand_model_names : Bool
  expand_ordinals : Bool
  expand_percentages : Bool
  expand_currency : Bool
  expand_time : Bool
  expand_ranges : Bool
  expand_units : Bool
  expand_scale_suffixes : Bool
  expand_scientific : Bool
  expand_fractions : Bool
  expand_decades : Bool
  expand_phone_numbers : Bool
  expand_ip_addresses : Bool
  normalize_leading_decimals : Bool
  expand_roman_numerals : Bool
  remove_urls : Bool
  remove_emails : Bool
  remove_html : Bool
  remove_hashtags : Bool
  remove_mentions : Bool
  remove_punctuation : Bool
  remove_stopwords : Bool
  normalize_unicode : Bool
  remove_accents : Bool
  remove_extra_whitespace : Bool

/-- The default configuration from the `TextPreprocessor` constructor
(all `true` except `expand_roman_numerals`, `remove_hashtags`,
`remove_mentions`, `remove_stopwords`, `remove_accents`). -/
def defaultPreprocessConfig : PreprocessConfig :=
  PreprocessConfig.mk true true true true true true true true true true true
    true true true true true true true false true true true false false true
    false true false true

/-- The all-flags-disabled configuration. -/
def allOffConfig : PreprocessConfig :=
  PreprocessConfig.mk false false false false false false false false false
    false false false false false false false false false false false false
    false false false false false false false false

/-- The rewrite steps of `process`, one per guarded block, as abstract
string transformations (each models the full body of its `if (cfg.x)`
block, including any `.trim()` it performs).  `replaceNumbers` takes the
`replace_floats` flag it reads internally. -/
structure PreprocessRules where
  normalizeUnicode : String → String
  removeHtml : String → String
  removeUrls : String → String
  removeEmails : String → String
  removeHashtags : String → String
  removeMentions : String → String
  expandContractions : String → String
  expandIpAddresses : String → String
  normalizeLeadingDecimals : String → String
  expandCurrency : String → String
  expandPercentages : String → String
  expandTime : String → String
  expandRanges : String → String
  expandModelNames : String → String
  expandUnits : String → String
  expandScientific : String → String
  expandScaleSuffixes : String → String
  expandFractions : String → String
  expandOrdinals : String → String
  expandDecades : String → String
  expandPhoneNumbers : String → String
  replaceNumbers : Bool → String → String
  removePunctuation : String → String
  toLowercase : String → String
  collapseWhitespace : String → String

/-- `TextPreprocessor.process(text)`: the exact guard/order structure of
the source. -/
def process (r : PreprocessRules) (cfg : PreprocessConfig) (text : String) :
    String :=
  let t := text
  let t := if cfg.normalize_unicode then r.normalizeUnicode t else t
  let t := if cfg.remove_html then r.removeHtml t else t
  let t := if cfg.remove_urls then r.removeUrls t else t
  let t := if cfg.remove_emails then r.removeEmails t else t
  let t := if cfg.remove_hashtags then r.removeHashtags t else t
  let t := if cfg.remove_mentions then r.removeMentions t else t
  let t := if cfg.expand_contractions then r.expandContractions t else t
  let t := if cfg.expand_ip_addresses then r.expandIpAddresses t else t
  let t := if cfg.normalize_leading_decimals then r.normalizeLeadingDecimals t
    else t
  let t := if cfg.expand_currency then r.expandCurrency t else t
  let t := if cfg.expand_percentages then r.expandPercentages t else t
  let t := if cfg.expand_time then r.expandTime t else t
  let t := if cfg.expand_ranges then r.expandRanges t else t
  let t := if cfg.expand_model_names then r.expandModelNames t else t
  let t := if cfg.expand_units then r.expandUnits t else t
  let t := if cfg.expand_scientific then r.expandScientific t else t
  let t := if cfg.expand_scale_suffixes then r.expandScaleSuffixes t else t
  let t := if cfg.expand_fractions then r.expandFractions t else t
  let t := if cfg.expand_ordinals then r.expandOrdinals t else t
  let t := if cfg.expand_decades then r.expandDecades t else t
  let t := if cfg.expand_phone_numbers then r.expandPhoneNumbers t else t
  let t := if cfg.replace_numbers then r.replaceNumbers cfg.replace_floats t
    else t
  let t := if cfg.remove_punctuation then r.removePunctuation t else t
  let t := if cfg.lowercase then r.toLowercase t else t
  let t := if cfg.remove_extra_whitespace then r.collapseWhitespace t else t
  t

/-! ## Theorems for C5 and C10 -/

/-- C5 (amended): the `"<N> hundred"` special form applies to exact
multiples of 100 that are not multiples of 1000 only up to 1999 (the
source additionally requires `hundreds < 20`); in that range
`number_to_words(n) = ONES[n/100] ++ " hundred"`.  Also
`number_to_words(0) = "zero"` and `number_to_words(1000)` contains
`"thousand"`. -/
theorem C5_hundreds_special_case :
    (∀ n : Int, 100 ≤ n → n ≤ 9999 → n % 100 = 0 → n % 1000 ≠ 0 →
      n < 2000 → numberToWords n = ONES.getD (n.toNat / 100) "" ++ " hundred") ∧
    numberToWords 0 = "zero" ∧
    List.IsInfix "thousand".data (numberToWords 1000).data := by
  refine ⟨fun n h1 h2 h3 h4 h5 => ?_, by decide, ?_⟩
  · have hn : ¬ n < 0 := by omega
    rw [numberToWords, if_neg hn]
    have hz : ¬ n.toNat = 0 := by omega
    rw [numberToWordsNat, if_neg hz, if_pos]
    refine ⟨by omega, by omega, by omega, by omega, by omega⟩
  · exact ⟨"one ".data, [], by decide⟩

/-- Witness for C5: `number_to_words(1200) = "twelve hundred"`. -/
theorem C5_hundreds_witness : numberToWords 1200 = "twelve hundred" := by
  have h := (C5_hundreds_special_case.1 1200 (by decide) (by decide) (by decide)
    (by decide) (by decide))
  simpa using h

/-- Counterexample for C5 as stated: 2100 is a multiple of 100 and not of
1000 inside 100–9999, but renders as `"two thousand one hundred"`, not as
the `"<N> hundred"` form `"twenty-one hundred"`. -/
theorem C5_hundreds_counterexample :
    numberToWords 2100 = "two thousand one hundred" ∧
    numberToWordsNat 21 ++ " hundred" = "twenty-one hundred" ∧
    numberToWords 2100 ≠ "twenty-one hundred" := by
  refine ⟨by decide, by decide, by decide⟩

/-- C10: with every configuration flag disabled, `process` returns its
input unchanged, whatever the rule bodies do: no guard fires, so the
pipeline is the identity. -/
theorem C10_process_allOff_id (r : PreprocessRules) (s : String) :
    process r allOffConfig s = s := rfl

/-! ## Chunker (src/kitten-tts.js, `_ensurePunctuation` / `_chunkText`)

This models the class whose unit tests (`test/kitten-tts.test.js`) expect
`_ensurePunctuation('hello') === 'hello,'` and
`_chunkText('Just a sentence') === ['Just a sentence,']`: sentences are
split by `text.split(/[.!?]+/)` (delimiter-destroying, separator RUNS
produce one split), and a chunk without trailing punctuation gets a comma.

`splitOnRuns` models JS `String.split` with a `[...]+` character-class
regex: maximal separator runs split the string, and leading/trailing runs
contribute empty fields (e.g. `'..'.split(/[.!?]+/) === ['', '']`). -/

/-- Sentence-terminal characters of the split regex `/[.!?]+/`. -/
def isTermChar (c : Char) : Bool := c == '.' || c == '!' || c == '?'

/-- JS `s.split(/[X]+/)` for a character class `X` given as `p`. -/
def splitOnRuns (p : Char → Bool) : List Char → List (List Char)
  | [] => [[]]
  | [c] => if p c then [[], []] else [[c]]
  | c :: d :: rest =>
    let r := splitOnRuns p (d :: rest)
    if p c then
      if p d then r else [] :: r
    else
      match r with
      | f :: fs => (c :: f) :: fs
      | [] => [[c]]

/-- The punctuation list of `_ensurePunctuation`:
`['.', '!', '?', ',', ';', ':']`. -/
def PUNCT : List Char := ['.', '!', '?', ',', ';', ':']

/-- `_ensurePunctuation(text)`: trim; empty stays empty; if the last
character is not in `PUNCT`, append a comma. -/
def ensurePunctuation (text : List Char) : List Char :=
  let t := jsTrim text
  match t.getLast? with
  | none => t
  | some last => if PUNCT.contains last then t else t ++ [',']

/-- `const MAX_CHUNK_CHARS = 400`. -/
def MAX_CHUNK_CHARS : Nat := 400

/-- The word-accumulation loop of `_chunkText` for over-long sentences:
greedily accumulate whitespace-split words into `tempChunk` while
`tempChunk.length + word.length + 1 <= MAX_CHUNK_CHARS`, flushing
`_ensurePunctuation(tempChunk.trim())` when the next word does not fit,
and once more at the end. -/
def chunkWords : List (List Char) → List Char → List (List Char)
  | [], tempChunk =>
    if tempChunk ≠ [] then [ensurePunctuation (jsTrim tempChunk)] else []
  | w :: ws, tempChunk =>
    if tempChunk.length + w.length + 1 ≤ MAX_CHUNK_CHARS then
      chunkWords ws (if tempChunk = [] then w else tempChunk ++ ' ' :: w)
    else
      (if tempChunk ≠ [] then [ensurePunctuation (jsTrim tempChunk)] else [])
        ++ chunkWords ws w

/-- The body of `_chunkText`'s sentence loop: trim the sentence, skip it
when blank, emit it via `_ensurePunctuation` when it fits the budget, and
re-split it by whitespace otherwise. -/
def chunkSentence (s : List Char) : List (List Char) :=
  if jsTrim s = [] then []
  else if (jsTrim s).length ≤ MAX_CHUNK_CHARS then [ensurePunctuation (jsTrim s)]
  else chunkWords (splitOnRuns isJsWS (jsTrim s)) []

/-- `_chunkText(text)`: split on `[.!?]+` runs and run the sentence loop. -/
def chunkText (text : List Char) : List (List Char) :=
  (splitOnRuns isTermChar text).flatMap chunkSentence

/-- Whether a chunk's last character belongs to `PUNCT`. -/
def endsInPunctB (c : List Char) : Bool :=
  match c.getLast? with
  | some z => PUNCT.contains z
  | none => false

/-! ### Lemmas about trimming -/

lemma dropWhile_head_not (p : Char → Bool) :
    ∀ l : List Char, ∀ a, (l.dropWhile p).head? = some a → p a = false
  | [] => by simp
  | c :: cs => by
    by_cases h : p c
    · simpa [List.dropWhile_cons, h] using dropWhile_head_not p cs
    · intro a ha
      simp [List.dropWhile_cons, h] at ha
      simpa [← ha] using h

lemma dropWhile_eq_self_of_head (p : Char → Bool) (l : List Char)
    (h : ∀ a, l.head? = some a → p a = false) : l.dropWhile p = l := by
  cases l with
  | nil => rfl
  | cons c cs => simp [List.dropWhile_cons, h c rfl]

lemma dropWhile_suffix_drop (p : Char → Bool) :
    ∀ l : List Char, ∃ k, l.dropWhile p = l.drop k ∧ k ≤ l.length
  | [] => ⟨0, rfl, by simp⟩
  | c :: cs => by
    by_cases h : p c
    · obtain ⟨k, hk, hk2⟩ := dropWhile_suffix_drop p cs
      exact ⟨k + 1, by simpa [List.dropWhile_cons, h] using hk, by simp; omega⟩
    · exact ⟨0, by simp [List.dropWhile_cons, h], by simp⟩

lemma dropWhile_length_le (p : Char → Bool) (l : List Char) :
    (l.dropWhile p).length ≤ l.length := by
  obtain ⟨k, hk, _⟩ := dropWhile_suffix_drop p l
  rw [hk, List.length_drop]
  omega

lemma rdropWhile_length_le (p : Char → Bool) (l : List Char) :
    (l.rdropWhile p).length ≤ l.length := by
  rw [List.rdropWhile, List.length_reverse]
  have := dropWhile_length_le p l.reverse
  simpa using this

lemma rdropWhile_getLast_not (p : Char → Bool) (l : List Char) (z : Char)
    (h : (l.rdropWhile p).getLast? = some z) : p z = false := by
  rw [List.rdropWhile, List.getLast?_reverse] at h
  exact dropWhile_head_not _ _ _ h

lemma rdropWhile_head? (p : Char → Bool) (l : List Char)
    (h : l.rdropWhile p ≠ []) : (l.rdropWhile p).head? = l.head? := by
  induction l using List.reverseRecOn with
  | nil => simp at h
  | append_singleton l x ih =>
    by_cases hx : p x
    · rw [List.rdropWhile_concat_pos _ _ x hx] at h ⊢
      rcases l with - | ⟨c, cs⟩
      · simp at h
      · rw [ih h]
        simp
    · rw [List.rdropWhile_concat_neg _ _ x hx]

lemma rdropWhile_eq_self_of_getLast (p : Char → Bool) (l : List Char)
    (h : ∀ z, l.getLast? = some z → p z = false) : l.rdropWhile p = l := by
  rw [List.rdropWhile]
  rw [dropWhile_eq_self_of_head p l.reverse]
  · exact l.reverse_reverse
  · intro a ha
    rw [List.head?_reverse] at ha
    exact h a ha

lemma jsTrim_length_le (l : List Char) : (jsTrim l).length ≤ l.length :=
  le_trans (rdropWhile_length_le _ _) (dropWhile_length_le _ _)

lemma jsTrim_getLast_not (l : List Char) (z : Char)
    (h : (jsTrim l).getLast? = some z) : isJsWS z = false :=
  rdropWhile_getLast_not _ _ _ h

lemma jsTrim_head_not (l : List Char) (a : Char)
    (h : (jsTrim l).head? = some a) : isJsWS a = false := by
  have hne : jsTrim l ≠ [] := by
    intro hnil; rw [hnil] at h; simp at h
  rw [jsTrim, rdropWhile_head? _ _ hne] at h
  exact dropWhile_head_not _ _ _ h

lemma jsTrim_eq_self (l : List Char)
    (hh : ∀ a, l.head? = some a → isJsWS a = false)
    (hl : ∀ z, l.getLast? = some z → isJsWS z = false) : jsTrim l = l := by
  rw [jsTrim, dropWhile_eq_self_of_head _ _ hh,
    rdropWhile_eq_self_of_getLast _ _ hl]

lemma jsTrim_idem (l : List Char) : jsTrim (jsTrim l) = jsTrim l :=
  jsTrim_eq_self _ (jsTrim_head_not l) (jsTrim_getLast_not l)

lemma head?_append_left (l₁ l₂ : List Char) (a : Char)
    (h : l₁.head? = some a) : (l₁ ++ l₂).head? = some a := by
  cases l₁ <;> simp_all

lemma exists_getLast?_of_ne_nil (l : List Char) (h : l ≠ []) :
    ∃ z, l.getLast? = some z := by
  induction l using List.reverseRecOn with
  | nil => exact absurd rfl h
  | append_singleton l x _ => exact ⟨x, List.getLast?_concat l⟩

lemma exists_head?_of_ne_nil (l : List Char) (h : l ≠ []) :
    ∃ a, l.head? = some a := by
  cases l with
  | nil => exact absurd rfl h
  | cons c cs => exact ⟨c, rfl⟩

lemma jsTrim_ne_nil_of_head (l : List Char) (a : Char)
    (h : l.head? = some a) (ha : isJsWS a = false) : jsTrim l ≠ [] := by
  have hd : l.dropWhile isJsWS = l := by
    rcases l with - | ⟨c, cs⟩
    · simp at h
    · simp only [List.head?_cons, Option.some.injEq] at h
      simp [List.dropWhile_cons, h ▸ ha]
  rw [jsTrim, hd]
  intro hnil
  rw [List.rdropWhile_eq_nil_iff] at hnil
  rcases l with - | ⟨c, cs⟩
  · simp at h
  · simp only [List.head?_cons, Option.some.injEq] at h
    have := hnil c (by simp)
    rw [← h] at ha
    simp [this] at ha


/-! ### Lemmas about `ensurePunctuation` -/

lemma ensurePunct_of_punct (s : List Char) (z : Char)
    (hz : (jsTrim s).getLast? = some z) (hp : PUNCT.contains z = true) :
    ensurePunctuation s = jsTrim s := by
  have hp' : z ∈ PUNCT := by simpa using hp
  simp [ensurePunctuation, hz, hp']

lemma ensurePunct_append_comma (s : List Char) (z : Char)
    (hz : (jsTrim s).getLast? = some z) (hp : PUNCT.contains z = false) :
    ensurePunctuation s = jsTrim s ++ [','] := by
  have hp' : z ∉ PUNCT := by simpa using hp
  simp [ensurePunctuation, hz, hp']

/-- Every `_ensurePunctuation` output on a non-blank input is non-empty,
already trimmed, ends in a `PUNCT` character, and is at most one character
longer than the trimmed input. -/
lemma ensurePunct_spec (s : List Char) (hne : jsTrim s ≠ []) :
    ensurePunctuation s ≠ [] ∧
    jsTrim (ensurePunctuation s) = ensurePunctuation s ∧
    endsInPunctB (ensurePunctuation s) = true ∧
    (ensurePunctuation s).length ≤ (jsTrim s).length + 1 := by
  obtain ⟨z, hz⟩ := exists_getLast?_of_ne_nil _ hne
  obtain ⟨a, ha⟩ := exists_head?_of_ne_nil _ hne
  by_cases hp : PUNCT.contains z = true
  · rw [ensurePunct_of_punct s z hz hp]
    refine ⟨hne, ?_, ?_, Nat.le_succ _⟩
    · exact jsTrim_eq_self _ (jsTrim_head_not s) (jsTrim_getLast_not s)
    · simp only [endsInPunctB, hz]
      exact hp
  · rw [ensurePunct_append_comma s z hz (by simpa using hp)]
    refine ⟨by simp, ?_, ?_, by simp⟩
    · refine jsTrim_eq_self _ ?_ ?_
      · intro b hb
        rw [head?_append_left _ _ a ha] at hb
        cases hb
        exact jsTrim_head_not s a ha
      · intro z' hz'
        rw [List.getLast?_concat] at hz'
        cases hz'
        decide
    · simp [endsInPunctB, List.getLast?_concat]
      decide

/-! ### Lemmas about `splitOnRuns` -/

lemma splitOnRuns_nil (p : Char → Bool) : splitOnRuns p [] = [[]] := rfl

lemma splitOnRuns_singleton (p : Char → Bool) (c : Char) :
    splitOnRuns p [c] = if p c then [[], []] else [[c]] := rfl

lemma splitOnRuns_cons_cons (p : Char → Bool) (c d : Char) (rest : List Char) :
    splitOnRuns p (c :: d :: rest) =
      if p c then
        (if p d then splitOnRuns p (d :: rest)
         else [] :: splitOnRuns p (d :: rest))
      else
        match splitOnRuns p (d :: rest) with
        | f :: fs => (c :: f) :: fs
        | [] => [[c]] := rfl

lemma splitOnRuns_ne_nil (p : Char → Bool) :
    ∀ l : List Char, splitOnRuns p l ≠ []
  | [] => by simp [splitOnRuns_nil]
  | [c] => by
    rw [splitOnRuns_singleton]
    by_cases h : p c <;> simp [h]
  | c :: d :: rest => by
    have ih := splitOnRuns_ne_nil p (d :: rest)
    rcases hr : splitOnRuns p (d :: rest) with - | ⟨f, fs⟩
    · exact absurd hr ih
    · rw [splitOnRuns_cons_cons, hr]
      by_cases hc : p c
      · by_cases hd : p d <;> simp [hc, hd]
      · simp [hc]

/-- Every field produced by `splitOnRuns` is free of separator characters. -/
lemma splitOnRuns_sepFree (p : Char → Bool) :
    ∀ l : List Char, ∀ c ∈ splitOnRuns p l, ∀ x ∈ c, p x = false
  | [] => by simp [splitOnRuns_nil]
  | [c] => by
    rw [splitOnRuns_singleton]
    by_cases h : p c
    · simp [h]
    · intro c' hc' x hx
      simp only [if_neg h, List.mem_singleton] at hc'
      subst hc'
      simp only [List.mem_singleton] at hx
      subst hx
      simpa using h
  | c :: d :: rest => by
    have ih := splitOnRuns_sepFree p (d :: rest)
    rcases hr : splitOnRuns p (d :: rest) with - | ⟨f, fs⟩
    · exact absurd hr (splitOnRuns_ne_nil p _)
    · rw [splitOnRuns_cons_cons, hr]
      by_cases hc : p c
      · by_cases hd : p d
        · rw [if_pos hc, if_pos hd]
          intro c' hc' x hx
          exact ih c' (by rw [hr]; exact hc') x hx
        · rw [if_pos hc, if_neg hd]
          intro c' hc' x hx
          rcases List.mem_cons.mp hc' with h1 | h2
          · subst h1; simp at hx
          · exact ih c' (by rw [hr]; exact h2) x hx
      · rw [if_neg hc]
        intro c' hc' x hx
        rcases List.mem_cons.mp hc' with h1 | h2
        · subst h1
          rcases List.mem_cons.mp hx with h3 | h4
          · subst h3; simpa using hc
          · exact ih f (by rw [hr]; exact List.mem_cons_self f fs) x h4
        · exact ih c' (by rw [hr]; exact List.mem_cons_of_mem f h2) x hx

/-- If the input starts with a non-separator, the first field is
non-empty. -/
lemma splitOnRuns_head_ne_nil (p : Char → Bool) :
    ∀ l : List Char, ∀ a, l.head? = some a → p a = false →
      ∃ f fs, splitOnRuns p l = f :: fs ∧ f ≠ []
  | [] => by simp
  | [c] => by
    intro a ha hpa
    simp only [List.head?_cons, Option.some.injEq] at ha
    subst ha
    exact ⟨[c], [], by rw [splitOnRuns_singleton]; simp [hpa], by simp⟩
  | c :: d :: rest => by
    intro a ha hpa
    simp only [List.head?_cons, Option.some.injEq] at ha
    subst ha
    rcases hr : splitOnRuns p (d :: rest) with - | ⟨f, fs⟩
    · exact absurd hr (splitOnRuns_ne_nil p _)
    · exact ⟨c :: f, fs, by rw [splitOnRuns_cons_cons, hr]; simp [hpa],
        by simp⟩

/-- If the input ends with a non-separator, every field after the first is
non-empty. -/
lemma splitOnRuns_tail_ne_nil (p : Char → Bool) :
    ∀ l : List Char, ∀ z, l.getLast? = some z → p z = false →
      ∀ c ∈ (splitOnRuns p l).tail, c ≠ []
  | [] => by simp
  | [c] => by
    intro z hz hpz
    have hcz : c = z := by simpa using hz
    subst hcz
    rw [splitOnRuns_singleton, if_neg (by simp [hpz])]
    simp
  | c :: d :: rest => by
    intro z hz hpz
    rw [List.getLast?_cons_cons] at hz
    have ih := splitOnRuns_tail_ne_nil p (d :: rest) z hz hpz
    rcases hr : splitOnRuns p (d :: rest) with - | ⟨f, fs⟩
    · exact absurd hr (splitOnRuns_ne_nil p _)
    · rw [splitOnRuns_cons_cons, hr]
      by_cases hc : p c
      · by_cases hd : p d
        · rw [if_pos hc, if_pos hd]
          intro c' hc'
          exact ih c' (by rw [hr]; exact hc')
        · rw [if_pos hc, if_neg hd]
          intro c' hc'
          rw [List.tail_cons] at hc'
          obtain ⟨f', fs', hr', hf'⟩ :=
            splitOnRuns_head_ne_nil p (d :: rest) d rfl (by simpa using hd)
          rw [hr] at hr'
          injection hr' with hff hfs
          subst hff
          rcases List.mem_cons.mp hc' with h1 | h2
          · subst h1; exact hf'
          · exact ih c' (by rw [hr, List.tail_cons]; exact h2)
      · rw [if_neg hc]
        intro c' hc'
        rw [List.tail_cons] at hc'
        exact ih c' (by rw [hr, List.tail_cons]; exact hc')

/-- A non-empty input with non-separator first and last characters splits
into fields that are all non-empty. -/
lemma splitOnRuns_all_ne_nil (p : Char → Bool) (l : List Char)
    (a z : Char) (ha : l.head? = some a) (hpa : p a = false)
    (hz : l.getLast? = some z) (hpz : p z = false) :
    ∀ c ∈ splitOnRuns p l, c ≠ [] := by
  obtain ⟨f, fs, hr, hf⟩ := splitOnRuns_head_ne_nil p l a ha hpa
  have htail := splitOnRuns_tail_ne_nil p l z hz hpz
  intro c hc
  rw [hr] at hc
  rcases List.mem_cons.mp hc with h1 | h2
  · subst h1; exact hf
  · exact htail c (by rw [hr, List.tail_cons]; exact h2)

/-! ### Lemmas about `chunkWords` and the chunk invariants -/

lemma chunkWords_nil (temp : List Char) :
    chunkWords [] temp =
      if temp ≠ [] then [ensurePunctuation (jsTrim temp)] else [] := rfl

lemma chunkWords_cons (w : List Char) (ws : List (List Char))
    (temp : List Char) :
    chunkWords (w :: ws) temp =
      if temp.length + w.length + 1 ≤ MAX_CHUNK_CHARS then
        chunkWords ws (if temp = [] then w else temp ++ ' ' :: w)
      else
        (if temp ≠ [] then [ensurePunctuation (jsTrim temp)] else [])
          ++ chunkWords ws w := rfl

lemma head_of_sepFree (w : List Char) (hne : w ≠ [])
    (hsf : ∀ x ∈ w, isJsWS x = false) :
    ∃ a, w.head? = some a ∧ isJsWS a = false := by
  obtain ⟨a, ha⟩ := exists_head?_of_ne_nil w hne
  refine ⟨a, ha, ?_⟩
  rcases w with - | ⟨b, bs⟩
  · exact absurd rfl hne
  · simp only [List.head?_cons, Option.some.injEq] at ha
    subst ha
    exact hsf b (by simp)

/-- Flushing the accumulated `tempChunk` yields a non-empty, trimmed chunk
that ends in punctuation and has length at most the budget plus one. -/
lemma flush_spec (temp : List Char) (a : Char) (hhead : temp.head? = some a)
    (hws : isJsWS a = false) (hlen : temp.length ≤ MAX_CHUNK_CHARS) :
    ensurePunctuation (jsTrim temp) ≠ [] ∧
    jsTrim (ensurePunctuation (jsTrim temp)) = ensurePunctuation (jsTrim temp) ∧
    endsInPunctB (ensurePunctuation (jsTrim temp)) = true ∧
    (ensurePunctuation (jsTrim temp)).length ≤ MAX_CHUNK_CHARS + 1 := by
  have hne : jsTrim temp ≠ [] := jsTrim_ne_nil_of_head temp a hhead hws
  have hne2 : jsTrim (jsTrim temp) ≠ [] := by rw [jsTrim_idem]; exact hne
  obtain ⟨h1, h2, h3, h4⟩ := ensurePunct_spec (jsTrim temp) hne2
  refine ⟨h1, h2, h3, ?_⟩
  rw [jsTrim_idem] at h4
  have h5 := jsTrim_length_le temp
  omega

/-- All chunks emitted by the word-accumulation loop are non-empty,
trimmed, punctuation-terminated, and at most one character over the
budget, provided each word is non-empty, whitespace-free and within the
budget, and the accumulator is empty or well-formed. -/
lemma chunkWords_spec :
    ∀ (words : List (List Char)) (temp : List Char),
    (∀ w ∈ words,
      w ≠ [] ∧ (∀ x ∈ w, isJsWS x = false) ∧ w.length ≤ MAX_CHUNK_CHARS) →
    (temp = [] ∨ ((∃ a, temp.head? = some a ∧ isJsWS a = false) ∧
      temp.length ≤ MAX_CHUNK_CHARS)) →
    ∀ c ∈ chunkWords words temp,
      c ≠ [] ∧ jsTrim c = c ∧ endsInPunctB c = true ∧
      c.length ≤ MAX_CHUNK_CHARS + 1
  | [], temp => by
    intro _ ht c hc
    rw [chunkWords_nil] at hc
    by_cases h : temp = []
    · simp [h] at hc
    · simp only [h, ne_eq, not_false_eq_true, if_pos, List.mem_singleton] at hc
      subst hc
      rcases ht with h0 | ⟨⟨a, ha, haws⟩, hlen⟩
      · exact absurd h0 h
      · exact flush_spec temp a ha haws hlen
  | w :: ws, temp => by
    intro hw ht c hc
    obtain ⟨hwne, hwsf, hwlen⟩ := hw w (List.mem_cons_self w ws)
    have hw' : ∀ u ∈ ws,
        u ≠ [] ∧ (∀ x ∈ u, isJsWS x = false) ∧ u.length ≤ MAX_CHUNK_CHARS :=
      fun u hu => hw u (List.mem_cons_of_mem w hu)
    rw [chunkWords_cons] at hc
    by_cases hfit : temp.length + w.length + 1 ≤ MAX_CHUNK_CHARS
    · rw [if_pos hfit] at hc
      refine chunkWords_spec ws _ hw' ?_ c hc
      by_cases htnil : temp = []
      · rw [if_pos htnil]
        exact Or.inr ⟨head_of_sepFree w hwne hwsf, by omega⟩
      · rw [if_neg htnil]
        rcases ht with h0 | ⟨⟨a, ha, haws⟩, hlen⟩
        · exact absurd h0 htnil
        · refine Or.inr ⟨⟨a, head?_append_left _ _ a ha, haws⟩, ?_⟩
          simp only [List.length_append, List.length_cons]
          omega
    · rw [if_neg hfit] at hc
      rcases List.mem_append.mp hc with h1 | h2
      · by_cases htnil : temp = []
        · simp [htnil] at h1
        · simp only [htnil, ne_eq, not_false_eq_true, if_pos,
            List.mem_singleton] at h1
          subst h1
          rcases ht with h0 | ⟨⟨a, ha, haws⟩, hlen⟩
          · exact absurd h0 htnil
          · exact flush_spec temp a ha haws hlen
      · exact chunkWords_spec ws w hw'
          (Or.inr ⟨head_of_sepFree w hwne hwsf, by omega⟩) c h2

/-- Flushing the accumulated `tempChunk` yields a non-empty, trimmed chunk
that ends in punctuation — no length assumption needed. -/
lemma flush_basic (temp : List Char) (a : Char) (hhead : temp.head? = some a)
    (hws : isJsWS a = false) :
    ensurePunctuation (jsTrim temp) ≠ [] ∧
    jsTrim (ensurePunctuation (jsTrim temp)) = ensurePunctuation (jsTrim temp) ∧
    endsInPunctB (ensurePunctuation (jsTrim temp)) = true := by
  have hne : jsTrim temp ≠ [] := jsTrim_ne_nil_of_head temp a hhead hws
  have hne2 : jsTrim (jsTrim temp) ≠ [] := by rw [jsTrim_idem]; exact hne
  obtain ⟨h1, h2, h3, _⟩ := ensurePunct_spec (jsTrim temp) hne2
  exact ⟨h1, h2, h3⟩

/-- All chunks emitted by the word-accumulation loop are non-empty,
trimmed and punctuation-terminated, for ANY word lengths: only
non-emptiness and whitespace-freeness of the words are needed. -/
lemma chunkWords_basic :
    ∀ (words : List (List Char)) (temp : List Char),
    (∀ w ∈ words, w ≠ [] ∧ (∀ x ∈ w, isJsWS x = false)) →
    (temp = [] ∨ (∃ a, temp.head? = some a ∧ isJsWS a = false)) →
    ∀ c ∈ chunkWords words temp,
      c ≠ [] ∧ jsTrim c = c ∧ endsInPunctB c = true
  | [], temp => by
    intro _ ht c hc
    rw [chunkWords_nil] at hc
    by_cases h : temp = []
    · simp [h] at hc
    · simp only [h, ne_eq, not_false_eq_true, if_pos, List.mem_singleton] at hc
      subst hc
      rcases ht with h0 | ⟨a, ha, haws⟩
      · exact absurd h0 h
      · exact flush_basic temp a ha haws
  | w :: ws, temp => by
    intro hw ht c hc
    obtain ⟨hwne, hwsf⟩ := hw w (List.mem_cons_self w ws)
    have hw' : ∀ u ∈ ws, u ≠ [] ∧ (∀ x ∈ u, isJsWS x = false) :=
      fun u hu => hw u (List.mem_cons_of_mem w hu)
    rw [chunkWords_cons] at hc
    by_cases hfit : temp.length + w.length + 1 ≤ MAX_CHUNK_CHARS
    · rw [if_pos hfit] at hc
      refine chunkWords_basic ws _ hw' ?_ c hc
      by_cases htnil : temp = []
      · rw [if_pos htnil]
        exact Or.inr (head_of_sepFree w hwne hwsf)
      · rw [if_neg htnil]
        rcases ht with h0 | ⟨a, ha, haws⟩
        · exact absurd h0 htnil
        · exact Or.inr ⟨a, head?_append_left _ _ a ha, haws⟩
    · rw [if_neg hfit] at hc
      rcases List.mem_append.mp hc with h1 | h2
      · by_cases htnil : temp = []
        · simp [htnil] at h1
        · simp only [htnil, ne_eq, not_false_eq_true, if_pos,
            List.mem_singleton] at h1
          subst h1
          rcases ht with h0 | ⟨a, ha, haws⟩
          · exact absurd h0 htnil
          · exact flush_basic temp a ha haws
      · exact chunkWords_basic ws w hw'
          (Or.inr (head_of_sepFree w hwne hwsf)) c h2

/-- Every chunk produced by the word-accumulation loop is an
`_ensurePunctuation` image. -/
lemma chunkWords_mem_ensure :
    ∀ (ws : List (List Char)) (temp : List Char),
    ∀ c ∈ chunkWords ws temp, ∃ u, c = ensurePunctuation u
  | [], temp => by
    intro c hc
    rw [chunkWords_nil] at hc
    by_cases h : temp = []
    · simp [h] at hc
    · simp only [h, ne_eq, not_false_eq_true, if_pos, List.mem_singleton] at hc
      exact ⟨jsTrim temp, hc⟩
  | w :: ws, temp => by
    intro c hc
    rw [chunkWords_cons] at hc
    by_cases hfit : temp.length + w.length + 1 ≤ MAX_CHUNK_CHARS
    · rw [if_pos hfit] at hc
      exact chunkWords_mem_ensure ws _ c hc
    · rw [if_neg hfit] at hc
      rcases List.mem_append.mp hc with h1 | h2
      · by_cases h : temp = []
        · simp [h] at h1
        · simp only [h, ne_eq, not_false_eq_true, if_pos,
            List.mem_singleton] at h1
          exact ⟨jsTrim temp, h1⟩
      · exact chunkWords_mem_ensure ws w c h2

/-! ## Theorems for C3 and C4 -/

/-- C3 (amended): every chunk produced by `_chunkText` — on EVERY input —
is non-empty (and already trimmed) and its last character belongs to the
punctuation set `['.', '!', '?', ',', ';', ':']`; and, additionally,
whenever every whitespace-delimited word of every sentence fits the
400-character budget, every chunk has length at most 401 — the appended
punctuation character can push a chunk one character over the budget, so
the bound 400 of the claim is off by one, and a single word longer than
the budget is emitted unsplit. -/
theorem C3_chunk_invariants (t c : List Char) (hc : c ∈ chunkText t) :
    c ≠ [] ∧ jsTrim c = c ∧ endsInPunctB c = true ∧
    ((∀ s ∈ splitOnRuns isTermChar t,
        ∀ w ∈ splitOnRuns isJsWS (jsTrim s), w.length ≤ MAX_CHUNK_CHARS) →
      c.length ≤ MAX_CHUNK_CHARS + 1) := by
  rw [chunkText, List.mem_flatMap] at hc
  obtain ⟨s, hs, hcs⟩ := hc
  rw [chunkSentence] at hcs
  by_cases hnil : jsTrim s = []
  · simp [hnil] at hcs
  · by_cases hshort : (jsTrim s).length ≤ MAX_CHUNK_CHARS
    · rw [if_neg hnil, if_pos hshort] at hcs
      obtain rfl := List.mem_singleton.mp hcs
      have hne2 : jsTrim (jsTrim s) ≠ [] := by rw [jsTrim_idem]; exact hnil
      obtain ⟨h1, h2, h3, h4⟩ := ensurePunct_spec (jsTrim s) hne2
      refine ⟨h1, h2, h3, fun _ => ?_⟩
      rw [jsTrim_idem] at h4
      omega
    · rw [if_neg hnil, if_neg hshort] at hcs
      obtain ⟨a, ha⟩ := exists_head?_of_ne_nil _ hnil
      obtain ⟨z, hz⟩ := exists_getLast?_of_ne_nil _ hnil
      have hwne : ∀ u ∈ splitOnRuns isJsWS (jsTrim s), u ≠ [] :=
        splitOnRuns_all_ne_nil isJsWS (jsTrim s) a z ha
          (jsTrim_head_not s a ha) hz (jsTrim_getLast_not s z hz)
      have hwsf : ∀ u ∈ splitOnRuns isJsWS (jsTrim s), ∀ x ∈ u,
          isJsWS x = false := splitOnRuns_sepFree isJsWS (jsTrim s)
      obtain ⟨h1, h2, h3⟩ := chunkWords_basic _ []
        (fun u hu => ⟨hwne u hu, hwsf u hu⟩) (Or.inl rfl) c hcs
      refine ⟨h1, h2, h3, fun hw => ?_⟩
      exact (chunkWords_spec _ []
        (fun u hu => ⟨hwne u hu, hwsf u hu, hw s hs u hu⟩)
        (Or.inl rfl) c hcs).2.2.2

/-- Witness for C3: on `"Hi there. Bye"` the chunk `"Hi there,"` is
produced and satisfies the amended invariants, including the length bound
once the word-size side condition is discharged. -/
theorem C3_chunk_witness :
    "Hi there,".data ≠ [] ∧
    jsTrim "Hi there,".data = "Hi there,".data ∧
    endsInPunctB "Hi there,".data = true ∧
    "Hi there,".data.length ≤ MAX_CHUNK_CHARS + 1 := by
  obtain ⟨h1, h2, h3, h4⟩ :=
    C3_chunk_invariants "Hi there. Bye".data "Hi there,".data (by decide)
  exact ⟨h1, h2, h3, h4 (by decide)⟩

set_option maxRecDepth 4000 in
/-- Counterexample for C3 as stated: a 400-character sentence with no
trailing punctuation gets a comma appended and the resulting single chunk
has length 401, exceeding the 400-character budget. -/
theorem C3_chunk_counterexample :
    ∃ c ∈ chunkText (List.replicate 400 'a'), MAX_CHUNK_CHARS < c.length :=
  ⟨List.replicate 400 'a' ++ [','], by decide, by decide⟩

/-- C4: every chunk produced by `_chunkText` passes through
`_ensurePunctuation`, and `_ensurePunctuation` terminates a chunk whose
trimmed text does not already end in punctuation by appending a COMMA
(never a period). -/
theorem C4_comma_not_period (t s : List Char) :
    (∀ c ∈ chunkText t, ∃ u, c = ensurePunctuation u) ∧
    (∀ z, (jsTrim s).getLast? = some z → PUNCT.contains z = false →
      ensurePunctuation s = jsTrim s ++ [',']) := by
  constructor
  · intro c hc
    rw [chunkText, List.mem_flatMap] at hc
    obtain ⟨s', hs', hcs⟩ := hc
    rw [chunkSentence] at hcs
    by_cases h1 : jsTrim s' = []
    · simp [h1] at hcs
    · by_cases h2 : (jsTrim s').length ≤ MAX_CHUNK_CHARS
      · rw [if_neg h1, if_pos h2] at hcs
        obtain rfl := List.mem_singleton.mp hcs
        exact ⟨jsTrim s', rfl⟩
      · rw [if_neg h1, if_neg h2] at hcs
        exact chunkWords_mem_ensure _ _ c hcs
  · intro z hz hp
    exact ensurePunct_append_comma s z hz hp

/-- Witness for C4: `"Hello"` has no trailing punctuation and is
terminated with a comma. -/
theorem C4_comma_witness :
    ensurePunctuation "Hello".data = jsTrim "Hello".data ++ [','] :=
  (C4_comma_not_period [] "Hello".data).2 'o' (by decide) (by decide)

/-! ## Voice lookup (src/kitten-tts.js, `_prepareInputs` step 4)

`if (this.voiceAliases[voiceName]) voiceName = this.voiceAliases[voiceName];
 if (!this._voices[voiceName]) throw new Error(
   `Voice '${voiceName}' not found. Available: ${this.availableVoices.join(', ')}`);`

Note that `voiceName` is REASSIGNED to the resolved internal key before the
error message is built.  `availableVoices` is `Object.keys(this._voices)`
(insertion order), modelled as the keys of an association list. -/

/-- The apostrophe character (U+0027) used in the error message. -/
def QUOTE : Char := Char.ofNat 39

/-- The apostrophe as a one-character string. -/
def quoteStr : String := String.singleton QUOTE

/-- Alias resolution: `if (this.voiceAliases[voiceName]) voiceName = ...`
(a JS truthiness test, so an empty-string alias value does not count). -/
def resolveVoiceName (aliases : List (String × String)) (name : String) :
    String :=
  match aliases.lookup name with
  | some k => if k = "" then name else k
  | none => name

/-- The voice-lookup step: return the archive entry for the resolved key,
or the `VoiceNotFoundError` message of the source. -/
def lookupVoice {α : Type} (aliases : List (String × String))
    (voices : List (String × α)) (name : String) : Except String α :=
  let resolved := resolveVoiceName aliases name
  match voices.lookup resolved with
  | some v => Except.ok v
  | none =>
    Except.error ("Voice " ++ quoteStr ++ resolved ++ quoteStr ++
      " not found. Available: " ++
      String.intercalate ", " (voices.map Prod.fst))

/-! ## Theorems for C9 -/

/-- C9 (amended): when the resolved internal key is absent from the
archive, input preparation fails with an error — never an `ok` result, so
no default voice is substituted — whose message names the RESOLVED
internal key (which equals the requested name only when no alias entry
applies) and lists the archive's available keys. -/
theorem C9_voiceNotFound_message {α : Type} (aliases : List (String × String))
    (voices : List (String × α)) (name : String)
    (hmiss : voices.lookup (resolveVoiceName aliases name) = none) :
    lookupVoice aliases voices name =
      Except.error ("Voice " ++ quoteStr ++ resolveVoiceName aliases name ++
        quoteStr ++ " not found. Available: " ++
        String.intercalate ", " (voices.map Prod.fst)) := by
  rw [lookupVoice]
  simp only [hmiss]

/-- Witness for C9: requesting `Bella` when its internal key
`expr-voice-2-f` is missing produces the error naming the internal key and
the available key `expr-voice-5-m`. -/
theorem C9_voiceNotFound_witness :
    lookupVoice [("Bella", "expr-voice-2-f")] [("expr-voice-5-m", (0 : Nat))]
        "Bella" =
      Except.error ("Voice " ++ quoteStr ++
        resolveVoiceName [("Bella", "expr-voice-2-f")] "Bella" ++ quoteStr ++
        " not found. Available: " ++
        String.intercalate ", "
          ([("expr-voice-5-m", (0 : Nat))].map Prod.fst)) :=
  C9_voiceNotFound_message [("Bella", "expr-voice-2-f")]
    [("expr-voice-5-m", (0 : Nat))] "Bella" (by decide)

/-- Counterexample for C9 as stated: for the aliased request `Bella` the
error message contains the resolved key `expr-voice-2-f` but NOT the
requested name `Bella`. -/
theorem C9_voiceNotFound_counterexample :
    lookupVoice [("Bella", "expr-voice-2-f")] [("expr-voice-5-m", (0 : Nat))]
        "Bella" =
      Except.error ("Voice " ++ quoteStr ++ "expr-voice-2-f" ++ quoteStr ++
        " not found. Available: expr-voice-5-m") ∧
    ¬ List.IsInfix "Bella".data
      ("Voice " ++ quoteStr ++ "expr-voice-2-f" ++ quoteStr ++
        " not found. Available: expr-voice-5-m").data := by
  constructor
  · rfl
  · decide

/-! ## NPY parsing (src/npz-loader.js, `parseNpy`)

Byte buffers are `List Nat` with entries `< 256` (`Uint8Array`).  Errors
carry the message as `List Char`.  The resulting `Float32Array` is
represented by its 32-bit patterns where the code produces them exactly
(`f4` verbatim; `i4`, whose buffer the final
`new Float32Array(data.buffer, data.byteOffset, data.length)` view
REINTERPRETS bit-for-bit); the `f8`/`i8` conversions build fresh arrays
whose numeric contents no claim inspects, so those constructors carry
their inputs. -/

/-- `const MAGIC = '\x93NUMPY'` as byte values. -/
def NPY_MAGIC : List Nat := [147, 78, 85, 77, 80, 89]

/-- `new DataView(buf, off, 2).getUint16(0, true)`; constructing the view
out of bounds throws a `RangeError`. -/
def dvGetUint16LE (bytes : List Nat) (off : Nat) : Except (List Char) Nat :=
  if off + 2 ≤ bytes.length then
    Except.ok (bytes.getD off 0 + 256 * bytes.getD (off + 1) 0)
  else Except.error "RangeError: DataView bounds".data

/-- `new DataView(buf, off, 4).getUint32(0, true)`. -/
def dvGetUint32LE (bytes : List Nat) (off : Nat) : Except (List Char) Nat :=
  if off + 4 ≤ bytes.length then
    Except.ok (bytes.getD off 0 + 256 * bytes.getD (off + 1) 0 +
      65536 * bytes.getD (off + 2) 0 + 16777216 * bytes.getD (off + 3) 0)
  else Except.error "RangeError: DataView bounds".data

/-- Lines 26–31 of `npz-loader.js`: `headerLen` is a 4-byte little-endian
field at offset 8 when `majorVersion >= 2`, else a 2-byte little-endian
field at offset 8; the header starts at offset 12 resp. 10.  (`bytes[6]`
on a too-short buffer is `undefined`, and `undefined >= 2` is false in
JS, which `getD 6 0` reproduces.)  Returns `(headerOffset, headerLen)`. -/
def readHeaderBlock (bytes : List Nat) : Except (List Char) (Nat × Nat) :=
  if bytes.getD 6 0 ≥ 2 then
    (dvGetUint32LE bytes 8).map (fun hl => (12, hl))
  else
    (dvGetUint16LE bytes 8).map (fun hl => (10, hl))

/-- The header slice `bytes.slice(headerOffset, headerOffset + headerLen)`
taken by `parseNpy` (JS `slice` clamps, as do `drop`/`take`). -/
def headerBytesOf (bytes : List Nat) : Except (List Char) (List Nat) :=
  (readHeaderBlock bytes).map fun p => (bytes.drop p.1).take p.2

/-- `new TextDecoder().decode` restricted to ASCII: the `.npy` headers this
code consumes are ASCII; a byte `>= 0x80` is modelled as U+FFFD (the
decoder's replacement character; genuine multi-byte UTF-8 sequences cannot
occur in any header a claim exercises). -/
def decodeAsciiChar (b : Nat) : Char :=
  if b < 128 then Char.ofNat b else Char.ofNat 0xFFFD

/-- Decode a byte slice to characters. -/
def decodeAscii (bytes : List Nat) : List Char := bytes.map decodeAsciiChar

/-- `TextEncoder.encodeInto` for ASCII text (used by the `makeNpy` test
helper, whose header is pure ASCII). -/
def encodeAscii (cs : List Char) : List Nat := cs.map Char.toNat

/-- Match a literal character sequence and return the remainder. -/
def stripPre : List Char → List Char → Option (List Char)
  | [], l => some l
  | _ :: _, [] => none
  | p :: ps, c :: cs => if c = p then stripPre ps cs else none

/-- Match `'key'\s*:\s*` (the common prefix of the three header regexes)
and return the remainder. -/
def tryKeyQuoted (key : List Char) (l : List Char) : Option (List Char) :=
  (stripPre (QUOTE :: (key ++ [QUOTE])) l).bind fun l1 =>
    (stripPre [':'] (l1.dropWhile isJsWS)).bind fun l3 =>
      some (l3.dropWhile isJsWS)

/-- One attempt of `/'descr'\s*:\s*'([^']+)'/` at the current position. -/
def tryDescrAt (l : List Char) : Option (List Char) :=
  (tryKeyQuoted "descr".data l).bind fun l4 =>
    (stripPre [QUOTE] l4).bind fun l5 =>
      let cap := l5.takeWhile (fun c => c != QUOTE)
      if cap = [] then none
      else if (l5.drop cap.length).head? = some QUOTE then some cap else none

/-- `header.match(/'descr'\s*:\s*'([^']+)'/)`: leftmost match, returning
the capture group. -/
def findDescr : List Char → Option (List Char)
  | [] => none
  | c :: rest =>
    match tryDescrAt (c :: rest) with
    | some cap => some cap
    | none => findDescr rest

/-- One attempt of `/'shape'\s*:\s*\(([^)]*)\)/` at the current
position (the capture may be empty). -/
def tryShapeAt (l : List Char) : Option (List Char) :=
  (tryKeyQuoted "shape".data l).bind fun l4 =>
    (stripPre ['('] l4).bind fun l5 =>
      let cap := l5.takeWhile (fun c => c != ')')
      if (l5.drop cap.length).head? = some ')' then some cap else none

/-- `header.match(/'shape'\s*:\s*\(([^)]*)\)/)`. -/
def findShape : List Char → Option (List Char)
  | [] => none
  | c :: rest =>
    match tryShapeAt (c :: rest) with
    | some cap => some cap
    | none => findShape rest

/-- One attempt of `/'fortran_order'\s*:\s*(True|False)/`. -/
def tryFortranAt (l : List Char) : Option (List Char) :=
  (tryKeyQuoted "fortran_order".data l).bind fun l4 =>
    match stripPre "True".data l4 with
    | some _ => some "True".data
    | none =>
      match stripPre "False".data l4 with
      | some _ => some "False".data
      | none => none

/-- `header.match(/'fortran_order'\s*:\s*(True|False)/)`. -/
def findFortran : List Char → Option (List Char)
  | [] => none
  | c :: rest =>
    match tryFortranAt (c :: rest) with
    | some cap => some cap
    | none => findFortran rest

/-- JS `String.prototype.split(sep)` for a one-character separator:
splits at EVERY occurrence. -/
def splitOnChar (sep : Char) : List Char → List (List Char)
  | [] => [[]]
  | c :: rest =>
    if c = sep then [] :: splitOnChar sep rest
    else
      match splitOnChar sep rest with
      | f :: fs => (c :: f) :: fs
      | [] => [[c]]

/-- Decimal digit value. -/
def digitVal? (c : Char) : Option Nat :=
  if 48 ≤ c.toNat ∧ c.toNat ≤ 57 then some (c.toNat - 48) else none

/-- Strict decimal parse of a non-empty digit string. -/
def natFromDigits? (s : List Char) : Option Nat :=
  if s = [] then none
  else s.foldl (fun acc c => acc.bind fun a =>
    (digitVal? c).map fun d => a * 10 + d) (some 0)

/-- JS `Number(s)` on the trimmed, non-empty shape entries.  A non-numeric
entry yields `NaN` in JS, which no claim exercises; it is modelled as 0. -/
def jsNumberNat (s : List Char) : Nat := (natFromDigits? s).getD 0

/-- `descr.replace(/[<>|=]/, '')`: remove the FIRST occurrence (no `g`
flag) of a byte-order character. -/
def stripDtypeMark : List Char → List Char
  | [] => []
  | c :: rest =>
    if c = '<' ∨ c = '>' ∨ c = '|' ∨ c = '=' then rest
    else c :: stripDtypeMark rest

/-- Group a byte list into little-endian 32-bit words
(`new Float32Array(buffer)` / `new Int32Array(buffer)` element reads). -/
def toWords32 : List Nat → List Nat
  | b0 :: b1 :: b2 :: b3 :: rest =>
    (b0 + 256 * b1 + 65536 * b2 + 16777216 * b3) :: toWords32 rest
  | _ => []

/-- Group a byte list into little-endian 64-bit words. -/
def toWords64 : List Nat → List Nat
  | b0 :: b1 :: b2 :: b3 :: b4 :: b5 :: b6 :: b7 :: rest =>
    (b0 + 256 * b1 + 65536 * b2 + 16777216 * b3 + 2^32 * b4 + 2^40 * b5 +
      2^48 * b6 + 2^56 * b7) :: toWords64 rest
  | _ => []

/-- Two's-complement reading of a 64-bit pattern (`BigInt64Array`). -/
def int64OfBits (w : Nat) : Int :=
  if w < 2 ^ 63 then (w : Int) else (w : Int) - 2 ^ 64

/-- The typed array produced by the `switch (dtype)` statement, before the
optional Fortran transpose and the final `Float32Array` view. -/
inductive NpyPre where
  /-- `f4`: `new Float32Array(dataBuffer)` — 32-bit patterns. -/
  | f32arr (words : List Nat)
  /-- `i4`: `new Int32Array(dataBuffer)` — over the SAME buffer. -/
  | i32arr (words : List Nat)
  /-- `f8`: fresh `Float32Array` with `data[i] = f64[i]` (IEEE narrowing
  of these 64-bit patterns; its numeric content no claim inspects). -/
  | f32fromF64 (words64 : List Nat)
  /-- `i8`: fresh `Float32Array` with `data[i] = Number(i64[i])`. -/
  | f32fromI64 (vals : List Int)
  /-- `u1`: `new Uint8Array(dataBuffer)`. -/
  | u8arr (bytes : List Nat)
  deriving Repr, DecidableEq

/-- The `data` field of the result. -/
inductive NpyData where
  /-- Exact 32-bit patterns of the resulting `Float32Array`. -/
  | f32 (words : List Nat)
  /-- Narrowed from 64-bit float patterns (numerics not modelled). -/
  | f32OfF64 (words64 : List Nat)
  /-- Converted from 64-bit integers (numerics not modelled). -/
  | f32OfI64 (vals : List Int)
  /-- `fortran_order` 2-D transpose: a fresh `Float32Array` built from
  numeric element reads of `pre` (no claim inspects this branch). -/
  | fortran2d (pre : NpyPre) (rows cols : Nat)
  deriving Repr, DecidableEq

/-- Line 95: `new Float32Array(data.buffer, data.byteOffset, data.length)`.
For `f4` this is the same buffer and the same bits; for `i4` it
REINTERPRETS the int32 buffer bit-for-bit; for `f8`/`i8` the buffer is the
fresh converted array, so the view is the identity; for `u1` the view
requests `4 * length` bytes from a `length`-byte buffer and throws a
`RangeError` unless the payload is empty. -/
def float32View (pre : NpyPre) : Except (List Char) NpyData :=
  match pre with
  | .f32arr ws => Except.ok (NpyData.f32 ws)
  | .i32arr ws => Except.ok (NpyData.f32 ws)
  | .f32fromF64 ws => Except.ok (NpyData.f32OfF64 ws)
  | .f32fromI64 vs => Except.ok (NpyData.f32OfI64 vs)
  | .u8arr bs =>
    if bs = [] then Except.ok (NpyData.f32 [])
    else Except.error "RangeError: Invalid typed array length".data

/-- The result record `{ data, shape, dtype }`. -/
structure ParsedNpy where
  data : NpyData
  shape : List Nat
  dtype : List Char
  deriving Repr, DecidableEq

/-- `parseNpy(buf)`, translated statement by statement. -/
def parseNpy (bytes : List Nat) : Except (List Char) ParsedNpy :=
  if bytes.take 6 ≠ NPY_MAGIC then
    Except.error "Not a valid .npy file (bad magic)".data
  else
    (readHeaderBlock bytes).bind fun (headerOffset, headerLen) =>
      let header := jsTrim (decodeAscii ((bytes.drop headerOffset).take headerLen))
      let descrMatch := findDescr header
      let shapeMatch := findShape header
      let fortranMatch := findFortran header
      match descrMatch, shapeMatch with
      | some descr, some shapeCap =>
        let shapeStr := jsTrim shapeCap
        let shape : List Nat :=
          if shapeStr = [] then [1]
          else (((splitOnChar ',' shapeStr).map jsTrim).filter
            (fun e => e != [])).map jsNumberNat
        let fortranOrder := match fortranMatch with
          | some cap => cap = "True".data
          | none => false
        let dataBuffer := bytes.drop (headerOffset + headerLen)
        let dtype := stripDtypeMark descr
        let pre : Except (List Char) NpyPre :=
          if dtype = "f4".data then
            if dataBuffer.length % 4 = 0 then
              Except.ok (NpyPre.f32arr (toWords32 dataBuffer))
            else Except.error "RangeError: byte length not a multiple of 4".data
          else if dtype = "f8".data then
            if dataBuffer.length % 8 = 0 then
              Except.ok (NpyPre.f32fromF64 (toWords64 dataBuffer))
            else Except.error "RangeError: byte length not a multiple of 8".data
          else if dtype = "i4".data then
            if dataBuffer.length % 4 = 0 then
              Except.ok (NpyPre.i32arr (toWords32 dataBuffer))
            else Except.error "RangeError: byte length not a multiple of 4".data
          else if dtype = "i8".data then
            if dataBuffer.length % 8 = 0 then
              Except.ok (NpyPre.f32fromI64 ((toWords64 dataBuffer).map int64OfBits))
            else Except.error "RangeError: byte length not a multiple of 8".data
          else if dtype = "u1".data then
            Except.ok (NpyPre.u8arr dataBuffer)
          else
            Except.error ("Unsupported .npy dtype: ".data ++ descr)
        pre.bind fun pre =>
          if fortranOrder = true ∧ shape.length = 2 then
            match shape with
            | [rows, cols] =>
              Except.ok ⟨NpyData.fortran2d pre rows cols, shape, dtype⟩
            | _ => Except.error [] -- unreachable: shape.length = 2
          else
            (float32View pre).map fun data => ⟨data, shape, dtype⟩
      | _, _ =>
        Except.error ("Cannot parse .npy header: ".data ++ header)

/-! ## The `makeNpy` encoder (test/npz-loader test helper) -/

/-- JS `Number.prototype.toString()` for naturals: decimal digits. -/
def natDigits (n : Nat) : List Char :=
  if h : n < 10 then [Char.ofNat (48 + n)]
  else natDigits (n / 10) ++ [Char.ofNat (48 + n % 10)]
  decreasing_by exact Nat.div_lt_self (by omega) (by omega)

/-- `shape.join(', ')`. -/
def joinShape : List Nat → List Char
  | [] => []
  | [n] => natDigits n
  | n :: m :: rest => natDigits n ++ ", ".data ++ joinShape (m :: rest)

/-- The concrete part of the header template literal before the shape
interpolation:
`{'descr': '<f4', 'fortran_order': False, 'shape': (`. -/
def hdrPre : List Char :=
  "\x7b".data ++ [QUOTE] ++ "descr".data ++ [QUOTE] ++ ": ".data ++
  [QUOTE] ++ "<f4".data ++ [QUOTE] ++ ", ".data ++
  [QUOTE] ++ "fortran_order".data ++ [QUOTE] ++ ": False, ".data ++
  [QUOTE] ++ "shape".data ++ [QUOTE] ++ ": (".data

/-- The header string
`{'descr': '<f4', 'fortran_order': False, 'shape': (${shape.join(', ')},), }`. -/
def npyHeader (shape : List Nat) : List Char :=
  hdrPre ++ joinShape shape ++ ",), \x7d".data

/-- `Math.ceil((header.length + 1) / 64) * 64`. -/
def padTarget (len : Nat) : Nat := ((len + 1 + 63) / 64) * 64

/-- `header.padEnd(target - 1, ' ') + '\n'`. -/
def npyHeaderPadded (shape : List Nat) : List Char :=
  npyHeader shape ++
    List.replicate (padTarget (npyHeader shape).length - 1 -
      (npyHeader shape).length) ' ' ++ ['\n']

/-- `view.setUint16(8, headerLen, true)`. -/
def le16Bytes (n : Nat) : List Nat := [n % 256, n / 256 % 256]

/-- `view.setFloat32(off, v, true)`: the little-endian byte image of a
float32 value, applied to its 32-bit pattern. -/
def le32Chunk (w : Nat) : List Nat :=
  [w % 256, w / 256 % 256, w / 65536 % 256, w / 16777216 % 256]

/-- `makeNpy(data, shape)` from the NPZ-loader test: magic, version 1.0,
2-byte little-endian header length, padded ASCII header, little-endian
float32 payload.  Float32 values are given as 32-bit patterns. -/
def makeNpy (words : List Nat) (shape : List Nat) : List Nat :=
  NPY_MAGIC ++ [1, 0] ++ le16Bytes (npyHeaderPadded shape).length ++
    encodeAscii (npyHeaderPadded shape) ++ words.flatMap le32Chunk

/-- The rational value denoted by a float32 bit pattern (finite range:
exponent 255, i.e. NaN/infinity, is outside every claim and mapped to 0). -/
def f32ToRat (w : Nat) : ℚ :=
  let sign : ℚ := if w / 2 ^ 31 % 2 = 1 then -1 else 1
  let e : Nat := w / 2 ^ 23 % 2 ^ 8
  let m : Nat := w % 2 ^ 23
  if e = 0 then sign * (m : ℚ) / 2 ^ 149
  else if e = 255 then 0
  else sign * ((2 ^ 23 + m : Nat) : ℚ) * 2 ^ e / 2 ^ 150

/-! ## Theorems for C8 and C6 -/

/-- C8: the loader reads the header-length field as 2 little-endian bytes
at offset 8 when the major-version byte is < 2 (header starts at offset
10), and as 4 little-endian bytes when it is >= 2 (header starts at
offset 12). -/
theorem C8_headerLen_field (bytes : List Nat) :
    (bytes.getD 6 0 < 2 → 10 ≤ bytes.length →
      readHeaderBlock bytes =
        Except.ok (10, bytes.getD 8 0 + 256 * bytes.getD 9 0) ∧
      headerBytesOf bytes =
        Except.ok ((bytes.drop 10).take
          (bytes.getD 8 0 + 256 * bytes.getD 9 0))) ∧
    (2 ≤ bytes.getD 6 0 → 12 ≤ bytes.length →
      readHeaderBlock bytes =
        Except.ok (12, bytes.getD 8 0 + 256 * bytes.getD 9 0 +
          65536 * bytes.getD 10 0 + 16777216 * bytes.getD 11 0) ∧
      headerBytesOf bytes =
        Except.ok ((bytes.drop 12).take
          (bytes.getD 8 0 + 256 * bytes.getD 9 0 +
            65536 * bytes.getD 10 0 + 16777216 * bytes.getD 11 0))) := by
  constructor
  · intro h6 hlen
    have hcond : ¬ (bytes.getD 6 0 ≥ 2) := by omega
    have h2 : 8 + 2 ≤ bytes.length := by omega
    refine ⟨?_, ?_⟩
    · rw [readHeaderBlock, if_neg hcond, dvGetUint16LE, if_pos h2]
      rfl
    · rw [headerBytesOf, readHeaderBlock, if_neg hcond, dvGetUint16LE,
        if_pos h2]
      rfl
  · intro h6 hlen
    have hcond : bytes.getD 6 0 ≥ 2 := h6
    have h4 : 8 + 4 ≤ bytes.length := by omega
    refine ⟨?_, ?_⟩
    · rw [readHeaderBlock, if_pos hcond, dvGetUint32LE, if_pos h4]
      rfl
    · rw [headerBytesOf, readHeaderBlock, if_pos hcond, dvGetUint32LE,
        if_pos h4]
      rfl

/-- Witness for C8: a version-1 and a version-2 prefix with header length
118. -/
theorem C8_headerLen_witness :
    readHeaderBlock [147, 78, 85, 77, 80, 89, 1, 0, 118, 0] =
      Except.ok (10, 118) ∧
    readHeaderBlock [147, 78, 85, 77, 80, 89, 2, 0, 118, 0, 0, 0] =
      Except.ok (12, 118) :=
  ⟨((C8_headerLen_field _).1 (by decide) (by decide)).1,
   ((C8_headerLen_field _).2 (by decide) (by decide)).1⟩

/-- A well-formed `<i4` entry holding the single int32 value 1
(header length 64, fortran_order False, shape (1,)). -/
def i4SampleNpy : List Nat := [
  147, 78, 85, 77, 80, 89, 1, 0, 64, 0, 123, 39, 100, 101, 115, 99,
  114, 39, 58, 32, 39, 60, 105, 52, 39, 44, 32, 39, 102, 111, 114, 116,
  114, 97, 110, 95, 111, 114, 100, 101, 114, 39, 58, 32, 70, 97, 108, 115,
  101, 44, 32, 39, 115, 104, 97, 112, 101, 39, 58, 32, 40, 49, 44, 41,
  44, 32, 125, 32, 32, 32, 32, 32, 32, 10, 1, 0, 0, 0]

/-- The same entry with the unsupported dtype `<u2`. -/
def u2SampleNpy : List Nat := [
  147, 78, 85, 77, 80, 89, 1, 0, 64, 0, 123, 39, 100, 101, 115, 99,
  114, 39, 58, 32, 39, 60, 117, 50, 39, 44, 32, 39, 102, 111, 114, 116,
  114, 97, 110, 95, 111, 114, 100, 101, 114, 39, 58, 32, 70, 97, 108, 115,
  101, 44, 32, 39, 115, 104, 97, 112, 101, 39, 58, 32, 40, 49, 44, 41,
  44, 32, 125, 32, 32, 32, 32, 32, 32, 10, 0, 0]

/-- C6 (code evaluated at the failing input): parsing the `<i4` entry
with stored integer 1 yields the Float32Array whose 32-bit pattern is
still `1` — the final view BIT-CASTS the int32 buffer — and the float32
value of pattern 1 is `2^-149`, not the claimed numeric `1.0` (whose
pattern is `0x3F800000 = 1065353216`).  The second half of the claim
holds: a dtype outside `{f4, f8, i4, i8, u1}` fails with the
unsupported-dtype error. -/
theorem C6_i4_bitcast_bug :
    parseNpy i4SampleNpy = Except.ok ⟨NpyData.f32 [1], [1], "i4".data⟩ ∧
    f32ToRat 1 = 1 / 2 ^ 149 ∧
    f32ToRat 1 ≠ (1 : ℚ) ∧
    f32ToRat 1065353216 = (1 : ℚ) ∧
    parseNpy u2SampleNpy =
      Except.error ("Unsupported .npy dtype: ".data ++ "<u2".data) := by
  refine ⟨rfl, ?_, ?_, ?_, rfl⟩
  · norm_num [f32ToRat]
  · norm_num [f32ToRat]
  · norm_num [f32ToRat]

/-! ### Round-trip lemmas: digits -/

lemma natDigits_lt10 (n : Nat) (h : n < 10) :
    natDigits n = [Char.ofNat (48 + n)] := by
  rw [natDigits, dif_pos h]

lemma natDigits_ge10 (n : Nat) (h : ¬ n < 10) :
    natDigits n = natDigits (n / 10) ++ [Char.ofNat (48 + n % 10)] := by
  conv_lhs => rw [natDigits]
  rw [dif_neg h]

lemma natDigits_ne_nil (n : Nat) : natDigits n ≠ [] := by
  by_cases h : n < 10
  · rw [natDigits_lt10 n h]; simp
  · rw [natDigits_ge10 n h]; simp

lemma digit_char_toNat (d : Nat) (h : d < 10) :
    (Char.ofNat (48 + d)).toNat = 48 + d := by
  interval_cases d <;> rfl

lemma natDigits_chars (n : Nat) :
    ∀ c ∈ natDigits n, 48 ≤ c.toNat ∧ c.toNat ≤ 57 := by
  induction n using Nat.strong_induction_on with
  | _ n ih =>
    by_cases h : n < 10
    · rw [natDigits_lt10 n h]
      intro c hc
      simp only [List.mem_singleton] at hc
      subst hc
      rw [digit_char_toNat n h]
      omega
    · rw [natDigits_ge10 n h]
      intro c hc
      rcases List.mem_append.mp hc with h1 | h2
      · exact ih (n / 10) (Nat.div_lt_self (by omega) (by omega)) c h1
      · simp only [List.mem_singleton] at h2
        subst h2
        rw [digit_char_toNat (n % 10) (Nat.mod_lt n (by omega))]
        omega

lemma digitVal?_digit (d : Nat) (h : d < 10) :
    digitVal? (Char.ofNat (48 + d)) = some d := by
  interval_cases d <;> rfl

lemma foldl_natDigits (n : Nat) :
    ∀ a : Nat,
      (natDigits n).foldl (fun acc c => acc.bind fun a =>
        (digitVal? c).map fun d => a * 10 + d) (some a) =
      some (a * 10 ^ (natDigits n).length + n) := by
  induction n using Nat.strong_induction_on with
  | _ n ih =>
    intro a
    by_cases h : n < 10
    · rw [natDigits_lt10 n h]
      simp [digitVal?_digit n h]
    · rw [natDigits_ge10 n h]
      rw [List.foldl_append]
      rw [ih (n / 10) (Nat.div_lt_self (by omega) (by omega)) a]
      simp only [List.foldl_cons, List.foldl_nil]
      rw [digitVal?_digit (n % 10) (Nat.mod_lt n (by omega))]
      rw [List.length_append, List.length_singleton]
      show some ((a * 10 ^ (natDigits (n / 10)).length + n / 10) * 10 + n % 10)
        = some (a * 10 ^ ((natDigits (n / 10)).length + 1) + n)
      congr 1
      have hexp : 10 ^ ((natDigits (n / 10)).length + 1) =
          10 ^ (natDigits (n / 10)).length * 10 := by ring
      rw [hexp]
      have hsplit : (a * 10 ^ (natDigits (n / 10)).length + n / 10) * 10 +
          n % 10 =
          a * (10 ^ (natDigits (n / 10)).length * 10) +
            (n / 10 * 10 + n % 10) := by ring
      rw [hsplit]
      congr 1
      omega

lemma jsNumberNat_natDigits (n : Nat) : jsNumberNat (natDigits n) = n := by
  rw [jsNumberNat, natFromDigits?, if_neg (natDigits_ne_nil n)]
  rw [foldl_natDigits n 0]
  simp

/-! ### Character-class consequences -/

lemma digit_not_ws (c : Char) (h1 : 48 ≤ c.toNat) (h2 : c.toNat ≤ 57) :
    isJsWS c = false := by
  have w1 : c ≠ ' ' := fun e => absurd (e ▸ h1) (by decide)
  have w2 : c ≠ '\t' := fun e => absurd (e ▸ h1) (by decide)
  have w3 : c ≠ '\r' := fun e => absurd (e ▸ h1) (by decide)
  have w4 : c ≠ '\n' := fun e => absurd (e ▸ h1) (by decide)
  simp [isJsWS, Char.isWhitespace, w1, w2, w3, w4]

lemma digit_ne_rparen (c : Char) (h1 : 48 ≤ c.toNat) (h2 : c.toNat ≤ 57) :
    (c != ')') = true := by
  have : c ≠ ')' := fun e => absurd (e ▸ h1) (by decide)
  simpa using this

lemma digit_ne_comma (c : Char) (h1 : 48 ≤ c.toNat) (h2 : c.toNat ≤ 57) :
    c ≠ ',' := fun e => absurd (e ▸ h1) (by decide)

/-! ### ASCII encode/decode -/

lemma decode_encode (cs : List Char) (h : ∀ c ∈ cs, c.toNat < 128) :
    decodeAscii (encodeAscii cs) = cs := by
  rw [decodeAscii, encodeAscii, List.map_map]
  conv_rhs => rw [← List.map_id cs]
  refine List.map_congr_left ?_
  intro c hc
  simp only [Function.comp_apply, decodeAsciiChar, if_pos (h c hc), id]
  exact Char.ofNat_toNat c

/-! ### Payload word lemmas -/

lemma le32Chunk_length (w : Nat) : (le32Chunk w).length = 4 := rfl

lemma flatMap_le32_length (words : List Nat) :
    (words.flatMap le32Chunk).length = 4 * words.length := by
  induction words with
  | nil => simp
  | cons w ws ih =>
    simp [List.flatMap_cons, ih, le32Chunk]
    omega

lemma toWords32_flat (words : List Nat) (hw : ∀ w ∈ words, w < 2 ^ 32) :
    toWords32 (words.flatMap le32Chunk) = words := by
  induction words with
  | nil => rfl
  | cons w ws ih =>
    have hwlt : w < 2 ^ 32 := hw w (by simp)
    rw [List.flatMap_cons]
    show toWords32 (le32Chunk w ++ ws.flatMap le32Chunk) = w :: ws
    rw [le32Chunk]
    show (w % 256 + 256 * (w / 256 % 256) + 65536 * (w / 65536 % 256) +
        16777216 * (w / 16777216 % 256)) :: toWords32 (ws.flatMap le32Chunk) =
      w :: ws
    rw [ih (fun u hu => hw u (by simp [hu]))]
    congr 1
    omega

/-! ### Header-string lemmas -/

/-- `'{'` / `'}'` as characters (kept out of literals). -/
def LBRACE : Char := Char.ofNat 123

def RBRACE : Char := Char.ofNat 125

lemma rdropWhile_append_all (p : Char → Bool) (h l : List Char)
    (hl : ∀ x ∈ l, p x = true) :
    (h ++ l).rdropWhile p = h.rdropWhile p := by
  induction l using List.reverseRecOn with
  | nil => simp
  | append_singleton l x ih =>
    rw [← List.append_assoc]
    rw [List.rdropWhile_concat_pos _ _ x (hl x (by simp))]
    exact ih (fun y hy => hl y (by simp [hy]))

lemma joinShape_chars (shape : List Nat) :
    ∀ c ∈ joinShape shape,
      (48 ≤ c.toNat ∧ c.toNat ≤ 57) ∨ c = ',' ∨ c = ' ' := by
  induction shape with
  | nil => simp [joinShape]
  | cons n rest ih =>
    rcases rest with - | ⟨m, rest'⟩
    · intro c hc
      rw [joinShape] at hc
      exact Or.inl (natDigits_chars n c hc)
    · intro c hc
      rw [joinShape] at hc
      rcases List.mem_append.mp hc with h1 | h2
      · rcases List.mem_append.mp h1 with h3 | h4
        · exact Or.inl (natDigits_chars n c h3)
        · have h4' : c = ',' ∨ c = ' ' := by simpa using h4
          rcases h4' with h5 | h5
          · exact Or.inr (Or.inl h5)
          · exact Or.inr (Or.inr h5)
      · exact ih c h2

lemma joinShape_ne_rparen (shape : List Nat) :
    ∀ c ∈ joinShape shape, (c != ')') = true := by
  intro c hc
  rcases joinShape_chars shape c hc with ⟨h1, h2⟩ | h | h
  · exact digit_ne_rparen c h1 h2
  · subst h; decide
  · subst h; decide

lemma joinShape_lt128 (shape : List Nat) :
    ∀ c ∈ joinShape shape, c.toNat < 128 := by
  intro c hc
  rcases joinShape_chars shape c hc with ⟨h1, h2⟩ | h | h
  · omega
  · subst h; decide
  · subst h; decide

lemma natDigits_head (n : Nat) :
    ∃ a, (natDigits n).head? = some a ∧ 48 ≤ a.toNat ∧ a.toNat ≤ 57 := by
  obtain ⟨a, ha⟩ := exists_head?_of_ne_nil _ (natDigits_ne_nil n)
  refine ⟨a, ha, natDigits_chars n a ?_⟩
  rcases hd : natDigits n with - | ⟨b, bs⟩
  · exact absurd hd (natDigits_ne_nil n)
  · rw [hd] at ha
    simp only [List.head?_cons, Option.some.injEq] at ha
    subst ha
    simp [hd]

/-- The capture of the shape regex on the generated header tail. -/
lemma takeWhile_shapeTail (shape : List Nat) :
    ((joinShape shape ++ ",), \x7d".data).takeWhile (fun c => c != ')')) =
      joinShape shape ++ [','] := by
  rw [List.takeWhile_append_of_pos (joinShape_ne_rparen shape)]
  rfl

lemma drop_shapeTail (shape : List Nat) :
    (((joinShape shape ++ ",), \x7d".data)).drop
      (joinShape shape ++ [',']).length).head? = some ')' := by
  have hsplit : joinShape shape ++ ",), \x7d".data =
      (joinShape shape ++ [',']) ++ (')' :: ", \x7d".data) := by
    rw [List.append_assoc]
    rfl
  rw [hsplit, List.drop_left]
  rfl

lemma jsTrim_cap (shape : List Nat) :
    jsTrim (joinShape shape ++ [',']) = joinShape shape ++ [','] := by
  refine jsTrim_eq_self _ ?_ ?_
  · intro a ha
    rcases shape with - | ⟨n, rest⟩
    · simp only [joinShape, List.nil_append, List.head?_cons,
        Option.some.injEq] at ha
      subst ha
      decide
    · obtain ⟨b, hb, hb1, hb2⟩ := natDigits_head n
      have hjoin : (joinShape (n :: rest)).head? = some b := by
        rcases rest with - | ⟨m, rest'⟩
        · rw [joinShape]; exact hb
        · rw [joinShape, List.append_assoc]
          exact head?_append_left _ _ b hb
      rw [head?_append_left _ _ b hjoin] at ha
      cases ha
      exact digit_not_ws _ hb1 hb2
  · intro z hz
    rw [List.getLast?_concat] at hz
    cases hz
    decide

lemma hdrPre_head : hdrPre.head? = some LBRACE := rfl

lemma npyHeader_head (shape : List Nat) :
    (npyHeader shape).head? = some LBRACE := by
  rw [npyHeader, List.append_assoc]
  exact head?_append_left _ _ LBRACE hdrPre_head

lemma npyHeader_getLast (shape : List Nat) :
    (npyHeader shape).getLast? = some RBRACE := by
  rw [npyHeader]
  rw [List.getLast?_append_of_ne_nil _ (by decide :
    (",), \x7d".data : List Char) ≠ [])]
  rfl

lemma jsTrim_npyHeaderPadded (shape : List Nat) :
    jsTrim (npyHeaderPadded shape) = npyHeader shape := by
  rw [npyHeaderPadded, jsTrim]
  rw [dropWhile_eq_self_of_head]
  · rw [rdropWhile_append_all isJsWS _ ['\n'] (by decide)]
    rw [rdropWhile_append_all isJsWS _ _ (fun y hy => by
      rw [List.eq_of_mem_replicate hy]; decide)]
    exact rdropWhile_eq_self_of_getLast _ _ (fun z hz => by
      rw [npyHeader_getLast shape] at hz
      cases hz
      decide)
  · intro a ha
    rw [List.append_assoc] at ha
    rw [head?_append_left _ _ LBRACE (npyHeader_head shape)] at ha
    cases ha
    decide

lemma npyHeaderPadded_ascii (shape : List Nat) :
    ∀ c ∈ npyHeaderPadded shape, c.toNat < 128 := by
  intro c hc
  rw [npyHeaderPadded] at hc
  rcases List.mem_append.mp hc with h1 | h2
  · rcases List.mem_append.mp h1 with h3 | h4
    · rw [npyHeader] at h3
      rcases List.mem_append.mp h3 with h5 | h6
      · rcases List.mem_append.mp h5 with h7 | h8
        · have hall : ∀ x ∈ hdrPre, x.toNat < 128 := by decide
          exact hall c h7
        · exact joinShape_lt128 shape c h8
      · have hall : ∀ x ∈ (",), \x7d".data : List Char), x.toNat < 128 := by
          decide
        exact hall c h6
    · rw [List.eq_of_mem_replicate h4]
      decide
  · have : c = '\n' := by simpa using h2
    subst this
    decide

/-! ### Regex-scanner evaluation on the generated header

The `descr` and `fortran_order` matches complete inside the concrete
prefix `hdrPre`, so they evaluate by `rfl` for ANY continuation; the
`shape` scan also walks only the concrete prefix, and its capture is the
residual `takeWhile` over the continuation. -/

lemma findDescr_hdr (rest : List Char) :
    findDescr (hdrPre ++ rest) = some "<f4".data := rfl

lemma findFortran_hdr (rest : List Char) :
    findFortran (hdrPre ++ rest) = some "False".data := rfl

lemma findShape_shift (rest : List Char) :
    findShape (hdrPre ++ rest) =
      findShape ([QUOTE] ++ "shape".data ++ [QUOTE] ++ ": (".data ++ rest) :=
  rfl

lemma tryShapeAt_key (rest : List Char) :
    tryShapeAt ([QUOTE] ++ "shape".data ++ [QUOTE] ++ ": (".data ++ rest) =
      (if (rest.drop (rest.takeWhile (fun c => c != ')')).length).head? =
          some ')'
       then some (rest.takeWhile (fun c => c != ')')) else none) := rfl

lemma findShape_head_success (c : Char) (r cap : List Char)
    (h : tryShapeAt (c :: r) = some cap) : findShape (c :: r) = some cap := by
  rw [findShape, h]

lemma findShape_eval (shape : List Nat) :
    findShape (npyHeader shape) = some (joinShape shape ++ [',']) := by
  have hrest := takeWhile_shapeTail shape
  have hdrop := drop_shapeTail shape
  have htry : tryShapeAt ([QUOTE] ++ "shape".data ++ [QUOTE] ++ ": (".data ++
      (joinShape shape ++ ",), \x7d".data)) =
      some (joinShape shape ++ [',']) := by
    rw [tryShapeAt_key, hrest, if_pos (hrest ▸ hdrop)]
  have hshift : findShape (npyHeader shape) =
      findShape ([QUOTE] ++ "shape".data ++ [QUOTE] ++ ": (".data ++
        (joinShape shape ++ ",), \x7d".data)) := by
    rw [npyHeader, List.append_assoc]
    exact findShape_shift _
  rw [hshift]
  exact findShape_head_success QUOTE _ _ htry

/-! ### Parsing the shape entries back -/

lemma splitOnChar_ne_nil (sep : Char) :
    ∀ l : List Char, splitOnChar sep l ≠ []
  | [] => by simp [splitOnChar]
  | c :: rest => by
    rw [splitOnChar]
    by_cases h : c = sep
    · simp [h]
    · rcases hr : splitOnChar sep rest with - | ⟨f, fs⟩
      · simp [h]
      · simp [h, hr]

lemma splitOnChar_append_free (sep : Char) (g : List Char)
    (hg : ∀ x ∈ g, x ≠ sep) :
    ∀ rest : List Char,
      splitOnChar sep (g ++ sep :: rest) = g :: splitOnChar sep rest := by
  induction g with
  | nil =>
    intro rest
    rw [List.nil_append, splitOnChar, if_pos rfl]
  | cons c g' ih =>
    intro rest
    rw [List.cons_append, splitOnChar,
      if_neg (hg c (by simp)), ih (fun x hx => hg x (by simp [hx])) rest]

lemma jsTrim_digits (n : Nat) : jsTrim (natDigits n) = natDigits n := by
  refine jsTrim_eq_self _ ?_ ?_
  · intro a ha
    obtain ⟨b, hb, hb1, hb2⟩ := natDigits_head n
    rw [hb] at ha
    cases ha
    exact digit_not_ws _ hb1 hb2
  · intro z hz
    have hmem : z ∈ natDigits n := by
      have := List.mem_getLast?_eq_getLast (l := natDigits n) hz
      obtain ⟨h1, h2⟩ := this
      rw [h2]
      exact List.getLast_mem h1
    obtain ⟨h1, h2⟩ := natDigits_chars n z hmem
    exact digit_not_ws _ h1 h2

lemma jsTrim_cons_space (l : List Char) : jsTrim (' ' :: l) = jsTrim l := by
  rw [jsTrim, jsTrim, List.dropWhile_cons, if_pos (by decide)]

lemma jsTrim_nil : jsTrim [] = [] := rfl

/-- Parsing back the comma-joined shape entries recovers the shape. -/
lemma shapeFields (shape : List Nat) :
    ((((splitOnChar ',' (joinShape shape ++ [','])).map jsTrim).filter
      (fun e => e != [])).map jsNumberNat) = shape := by
  induction shape with
  | nil => rfl
  | cons n rest ih =>
    have hfree : ∀ x ∈ natDigits n, x ≠ ',' := fun x hx => by
      obtain ⟨h1, h2⟩ := natDigits_chars n x hx
      exact digit_ne_comma x h1 h2
    have hne : (natDigits n != []) = true := by
      simpa using natDigits_ne_nil n
    rcases rest with - | ⟨m, rest'⟩
    · rw [joinShape]
      rw [splitOnChar_append_free ',' (natDigits n) hfree []]
      rw [show splitOnChar ',' ([] : List Char) = [[]] from rfl]
      rw [List.map_cons, List.map_cons, List.map_nil, jsTrim_digits,
        jsTrim_nil]
      rw [List.filter_cons, hne, List.filter_cons]
      simp only [show (([] : List Char) != []) = false from rfl,
        List.filter_nil, if_false, List.map_cons, List.map_nil,
        jsNumberNat_natDigits n]
      simp [jsNumberNat_natDigits]
    · rcases hX : splitOnChar ',' (joinShape (m :: rest') ++ [',']) with
        - | ⟨f, fs⟩
      · exact absurd hX (splitOnChar_ne_nil ',' _)
      · have key : splitOnChar ',' (joinShape (n :: m :: rest') ++ [',']) =
            natDigits n :: (' ' :: f) :: fs := by
          rw [joinShape]
          have e1 : natDigits n ++ ", ".data ++ joinShape (m :: rest') ++
              [','] =
              natDigits n ++
                (',' :: (' ' :: (joinShape (m :: rest') ++ [',']))) := by
            rw [List.append_assoc, List.append_assoc]
            rfl
          rw [e1, splitOnChar_append_free ',' (natDigits n) hfree]
          rw [splitOnChar, if_neg (by decide), hX]
        rw [key]
        rw [List.map_cons, List.map_cons, jsTrim_digits, jsTrim_cons_space]
        rw [List.filter_cons, hne, if_pos rfl]
        rw [List.map_cons, jsNumberNat_natDigits n]
        congr 1
        have ih' := ih
        rw [hX, List.map_cons] at ih'
        exact ih'

/-! ## Theorem for C7 -/

lemma encodeAscii_length (cs : List Char) :
    (encodeAscii cs).length = cs.length := by
  simp [encodeAscii]

/-- C7: parse-after-encode is the identity: `parseNpy (makeNpy words shape)`
recovers the shape and the bit-exact float32 words, for every word list
(32-bit patterns) and every shape whose padded header fits the 2-byte
header-length field. -/
theorem C7_roundtrip (words shape : List Nat)
    (hw : ∀ w ∈ words, w < 2 ^ 32)
    (hh : (npyHeaderPadded shape).length < 2 ^ 16) :
    parseNpy (makeNpy words shape) =
      Except.ok ⟨NpyData.f32 words, shape, "f4".data⟩ := by
  set hl := (npyHeaderPadded shape).length with hhl
  set payload := words.flatMap le32Chunk with hpayload
  have hB : makeNpy words shape =
      (NPY_MAGIC ++ [1, 0] ++ le16Bytes hl) ++
        (encodeAscii (npyHeaderPadded shape) ++ payload) := by
    rw [makeNpy]
    simp [List.append_assoc]
  have henc : (encodeAscii (npyHeaderPadded shape)).length = hl :=
    encodeAscii_length _
  have htake : (makeNpy words shape).take 6 = NPY_MAGIC := by
    rw [makeNpy, List.append_assoc, List.append_assoc, List.append_assoc,
      show (6 : Nat) = NPY_MAGIC.length from rfl]
    exact List.take_left _ _
  have hfirstlen : (NPY_MAGIC ++ [1, 0] ++ le16Bytes hl).length = 10 := by
    simp [NPY_MAGIC, le16Bytes]
  have hgetD6 : (makeNpy words shape).getD 6 0 = 1 := by
    rw [makeNpy]
    rfl
  have hgetD8 : (makeNpy words shape).getD 8 0 = hl % 256 := by
    rw [makeNpy]
    rfl
  have hgetD9 : (makeNpy words shape).getD 9 0 = hl / 256 % 256 := by
    rw [makeNpy]
    rfl
  have hlen10 : 10 ≤ (makeNpy words shape).length := by
    rw [hB, List.length_append, hfirstlen]
    omega
  have hreadHeader : readHeaderBlock (makeNpy words shape) =
      Except.ok (10, hl) := by
    rw [readHeaderBlock, if_neg (by rw [hgetD6]; omega), dvGetUint16LE,
      if_pos (by omega)]
    rw [hgetD8, hgetD9]
    have : hl % 256 + 256 * (hl / 256 % 256) = hl := by omega
    rw [this]
    rfl
  have hdrop10 : (makeNpy words shape).drop 10 =
      encodeAscii (npyHeaderPadded shape) ++ payload := by
    rw [hB, ← hfirstlen, List.drop_left]
  have hslice : ((makeNpy words shape).drop 10).take hl =
      encodeAscii (npyHeaderPadded shape) := by
    rw [hdrop10, ← henc, List.take_left]
  have hheader : jsTrim (decodeAscii (((makeNpy words shape).drop 10).take hl))
      = npyHeader shape := by
    rw [hslice, decode_encode _ (npyHeaderPadded_ascii shape),
      jsTrim_npyHeaderPadded]
  have hdescr : findDescr (npyHeader shape) = some "<f4".data := by
    rw [npyHeader, List.append_assoc]
    exact findDescr_hdr _
  have hfort : findFortran (npyHeader shape) = some "False".data := by
    rw [npyHeader, List.append_assoc]
    exact findFortran_hdr _
  have hshapeCap := findShape_eval shape
  have hcapTrim := jsTrim_cap shape
  have hcapNe : ((joinShape shape ++ [',']) = ([] : List Char)) = False := by
    simp
  have hdataBuf : (makeNpy words shape).drop (10 + hl) = payload := by
    have hdd : (makeNpy words shape).drop (10 + hl) =
        (((makeNpy words shape).drop 10)).drop hl := by
      rw [List.drop_drop]
    rw [hdd, hdrop10, ← henc, List.drop_left]
  have hplen : payload.length % 4 = 0 := by
    rw [hpayload, flatMap_le32_length]
    omega
  have hwords := toWords32_flat words hw
  have hshapeParse := shapeFields shape
  rw [parseNpy, if_neg (by rw [htake]; simp), hreadHeader]
  simp only [Except.bind, hheader, hdescr, hshapeCap, hfort, hcapTrim]
  have hdt : stripDtypeMark ['<', 'f', '4'] = ['f', '4'] := rfl
  have hwords' : toWords32 payload = words := by rw [hpayload]; exact hwords
  simp [hdt, hdataBuf, hplen, hwords', hshapeParse, float32View, Except.map]

set_option maxRecDepth 4000 in
/-- Witness for C7: a 2×1 float32 array with patterns of `1.0` and `-1.0`
round-trips exactly. -/
theorem C7_roundtrip_witness :
    parseNpy (makeNpy [1065353216, 3212836864] [2, 1]) =
      Except.ok ⟨NpyData.f32 [1065353216, 3212836864], [2, 1], "f4".data⟩ := by
  have hjoin : joinShape [2, 1] = "2, 1".data := by
    rw [joinShape, joinShape, natDigits_lt10 2 (by omega),
      natDigits_lt10 1 (by omega)]
    decide
  refine C7_roundtrip _ _ (by decide) ?_
  simp only [npyHeaderPadded, npyHeader, hjoin]
  decide
